import Mathlib

/-!
Shallow embedding of the rs-lox bytecode compiler and virtual machine
(src/value.rs, src/rle.rs, src/chunk.rs, src/table.rs, src/gc.rs,
src/scanner.rs, src/compiler.rs, src/vm.rs), together with proofs about the
spec's claims.

Modelling conventions:
* Rust `f32` payloads are modelled by `F32`: either NaN or an exact rational.
  The claims under verification only ever build f32 values from small integer
  literals (such as 123), which f32 represents exactly, and only compare or
  order them; IEEE rounding of arithmetic is never exercised by a claim, so
  `F32` carries exact rationals.  NaN is kept as a separate constructor
  because Rust's `==`/`<` on f32 treat NaN as unequal/unordered.
* Raw pointers (`ObjRef`, `*const ObjString`) are modelled as `Nat` handles:
  an index into the GC's list of allocated objects.  The Rust heap never
  moves objects, so addresses are stable and pointer equality is exactly
  handle equality.
* Loops that the Rust code runs without a bound (the probe loop in
  `table.rs::get_entry`, the scanner's character loops, the parser's
  recursion, the VM dispatch loop) are modelled with an explicit fuel
  parameter; the value `none` means the Rust code would not have returned
  (or, where noted, would have panicked).  Rust panics are modelled as
  `none` (or a dedicated `panic` outcome in the VM).
* `usize`/`u8`/`u16` are modelled as `Nat`; the code paths modelled keep all
  of them in range (`ref_const` checks the conversions explicitly).
  `LineNumber = i16` is modelled as `Int`; no claim exercises i16 overflow.
-/

namespace RsLox

/-- Model of Rust `f32` values: NaN, or an exactly-represented rational.
Only exactness properties used by the claims (integer literals, equality,
ordering) are modelled; rounding of arithmetic is not exercised by any claim. -/
inductive F32 where
  | nan : F32
  | fin : ℚ → F32
deriving DecidableEq, Repr

/-- Rust `f32 == f32` (IEEE equality): NaN is not equal to anything. -/
def f32Eq : F32 → F32 → Bool
  | .fin a, .fin b => a == b
  | _, _ => false

/-- Rust `f32::partial_cmp`: `None` when either operand is NaN. -/
def f32PartialCmp : F32 → F32 → Option Ordering
  | .fin a, .fin b => some (compare a b)
  | _, _ => none

/-- `value.rs`: `enum Value { Nil, Number(f32), Boolean(bool), Object(ObjRef) }`.
The variant order matters: `Value` derives `PartialOrd`, and Rust's derived
`PartialOrd` orders values of distinct variants by variant declaration order. -/
inductive Value where
  | nil : Value
  | number : F32 → Value
  | boolean : Bool → Value
  | object : Nat → Value
deriving DecidableEq, Repr

/-- Discriminant of a `Value` variant, in declaration order (used by the
derived `PartialOrd`). -/
def Value.discr : Value → Nat
  | .nil => 0
  | .number _ => 1
  | .boolean _ => 2
  | .object _ => 3

/-- Rust's derived `PartialOrd::partial_cmp` on `Value`: same variants compare
payloads (f32 partial, bool `false < true`, pointers by address); distinct
variants compare by discriminant. -/
def valuePartialCmp : Value → Value → Option Ordering
  | .nil, .nil => some .eq
  | .number a, .number b => f32PartialCmp a b
  | .boolean a, .boolean b => some (compare a b)
  | .object a, .object b => some (compare a b)
  | a, b => some (compare a.discr b.discr)

/-- Rust `a < b` on `Value` (via the derived `PartialOrd`), as used by the
`Less` opcode in `vm.rs`. -/
def valueLt (a b : Value) : Bool := valuePartialCmp a b == some .lt

/-- Rust `a > b` on `Value` (via the derived `PartialOrd`), as used by the
`Greater` opcode in `vm.rs`. -/
def valueGt (a b : Value) : Bool := valuePartialCmp a b == some .gt

/-- `value.rs::is_falsey`. -/
def is_falsey : Value → Bool
  | .nil => true
  | .boolean false => true
  | _ => false

/-- `value.rs::are_equal`: the equality used by the `Equal` opcode.  Note the
match has no `(Object, Object)` arm: object pairs fall into the catch-all. -/
def are_equal : Value → Value → Bool
  | .nil, .nil => true
  | .number a, .number b => f32Eq a b
  | .boolean a, .boolean b => a == b
  | _, _ => false

end RsLox

namespace RsLox

/-! ## RLE line index (`rle.rs`) -/

/-- `rle.rs::RleNode`. -/
structure RleNode (T : Type) where
  value : T
  count : Nat
deriving DecidableEq, Repr

/-- `rle.rs::Rle`: vector of runs plus the last pushed value. -/
structure Rle (T : Type) where
  data : List (RleNode T)
  last_value : Option T
deriving DecidableEq, Repr

/-- `Rle::new()`. -/
def Rle.new {T : Type} : Rle T := { data := [], last_value := none }

/-- `self.data.last_mut().unwrap().count += 1` (the data vector is nonempty
whenever `last_value` is set, so the `unwrap` cannot fail on reachable
states; on `[]` this returns `[]`, an unreachable case). -/
def incrLastCount {T : Type} : List (RleNode T) → List (RleNode T)
  | [] => []
  | [n] => [⟨n.value, n.count + 1⟩]
  | n :: rest => n :: incrLastCount rest

/-- `rle.rs::Rle::push`. -/
def Rle.push {T : Type} [DecidableEq T] (r : Rle T) (value : T) : Rle T :=
  match r.last_value with
  | some last =>
    if last = value then
      { r with data := incrLastCount r.data }
    else
      { data := r.data ++ [⟨value, 1⟩], last_value := some value }
  | none => { data := r.data ++ [⟨value, 1⟩], last_value := some value }

/-- The `for` loop of `rle.rs::Rle::get`, with the `skipped` accumulator. -/
def rleGetAux {T : Type} : List (RleNode T) → Nat → Nat → Option T
  | [], _, _ => none
  | n :: rest, skipped, index =>
    if skipped + n.count > index then some n.value
    else rleGetAux rest (skipped + n.count) index

/-- `rle.rs::Rle::get` (returns the value rather than a reference). -/
def Rle.get {T : Type} (r : Rle T) (index : Nat) : Option T :=
  rleGetAux r.data 0 index

end RsLox

namespace RsLox

/-! ## Chunk (`chunk.rs`) -/

/-- `chunk.rs::OpCode`, in declaration order (the `as u8` values). -/
inductive OpCode where
  | Return | Constant | ConstantLong | Nil | True | False | Pop
  | Get | GetLong | DefineGlobal | DefineGlobalLong
  | Equal | Greater | Less | Add | Subtract | Multiply | Divide
  | Not | Negate | Print
deriving DecidableEq, Repr

/-- `OpCode as u8`. -/
def OpCode.toByte : OpCode → Nat
  | .Return => 0 | .Constant => 1 | .ConstantLong => 2 | .Nil => 3
  | .True => 4 | .False => 5 | .Pop => 6 | .Get => 7 | .GetLong => 8
  | .DefineGlobal => 9 | .DefineGlobalLong => 10 | .Equal => 11
  | .Greater => 12 | .Less => 13 | .Add => 14 | .Subtract => 15
  | .Multiply => 16 | .Divide => 17 | .Not => 18 | .Negate => 19
  | .Print => 20

/-- `FromPrimitive::from_u8` for `OpCode`. -/
def byteToOp : Nat → Option OpCode
  | 0 => some .Return | 1 => some .Constant | 2 => some .ConstantLong
  | 3 => some .Nil | 4 => some .True | 5 => some .False | 6 => some .Pop
  | 7 => some .Get | 8 => some .GetLong | 9 => some .DefineGlobal
  | 10 => some .DefineGlobalLong | 11 => some .Equal | 12 => some .Greater
  | 13 => some .Less | 14 => some .Add | 15 => some .Subtract
  | 16 => some .Multiply | 17 => some .Divide | 18 => some .Not
  | 19 => some .Negate | 20 => some .Print
  | _ => none

/-- `chunk.rs::LineNumber = i16` (modelled as `Int`; no claim exercises
i16 range limits). -/
abbrev LineNumber := Int

/-- `chunk.rs::Chunk`: bytecode bytes, constant pool, RLE line index. -/
structure Chunk where
  code : List Nat
  constants : List Value
  lines : Rle LineNumber
deriving DecidableEq, Repr

/-- `Chunk::new()`. -/
def Chunk.new : Chunk := { code := [], constants := [], lines := Rle.new }

/-- `Chunk::write_byte`. -/
def Chunk.write_byte (c : Chunk) (op : Nat) (line : LineNumber) : Chunk :=
  { c with code := c.code ++ [op], lines := c.lines.push line }

/-- `Chunk::write_opcode`. -/
def Chunk.write_opcode (c : Chunk) (op : OpCode) (line : LineNumber) : Chunk :=
  c.write_byte op.toByte line

/-- `Chunk::write_short`: big-endian bytes of a `u16`. -/
def Chunk.write_short (c : Chunk) (value : Nat) (line : LineNumber) : Chunk :=
  { c with code := c.code ++ [value / 256, value % 256],
           lines := (c.lines.push line).push line }

/-- `Chunk::read_byte`. -/
def Chunk.read_byte (c : Chunk) (index : Nat) : Option Nat :=
  c.code.get? index

/-- `Chunk::read_short` (big-endian). -/
def Chunk.read_short (c : Chunk) (index : Nat) : Option Nat := do
  let a ← c.code.get? index
  let b ← c.code.get? (index + 1)
  return a * 256 + b

/-- `Chunk::add_const`: push the value, return its index. -/
def Chunk.add_const (c : Chunk) (value : Value) : Chunk × Nat :=
  ({ c with constants := c.constants ++ [value] }, c.constants.length)

/-- `Chunk::ref_const`: `u8::try_from` succeeds for indices `< 256` (short
form), otherwise `u16::try_from` for indices `< 65536` (long form, big-endian
operand); larger indices panic (`none`). -/
def Chunk.ref_const (c : Chunk) (const_ref : Nat) (byte_op long_op : OpCode)
    (line : LineNumber) : Option Chunk :=
  if const_ref < 256 then
    some ((c.write_opcode byte_op line).write_byte const_ref line)
  else if const_ref < 65536 then
    some ((c.write_opcode long_op line).write_short const_ref line)
  else
    none

/-- `Chunk::get_constant`: panics (`none`) on an out-of-range index. -/
def Chunk.get_constant (c : Chunk) (offset : Nat) : Option Value :=
  c.constants.get? offset

end RsLox

namespace RsLox

/-! ## Open-addressed hash table (`table.rs`)

Keys are `*const ObjString` pointers, modelled as `Nat` handles; the cached
FNV hash of a key (`ObjString::get_hash`) is supplied as a function
`hash : Nat → Nat` (32-bit values in the real code; only `hash k % cap`
is ever used).  The heap allocation of `cap` buckets is modelled as a
`List (Entry T)` of that length; `List.set` is the in-place bucket write.
The probe loop in `get_entry` has no bound in Rust — it relies on the
table never being full — so it is modelled with fuel; the callers pass
fuel `cap`, which suffices exactly when the walk can stop (an empty
bucket exists, or the key is present).  `none` means the Rust loop would
not have terminated.

The load-factor check `self.len + 1 > (self.cap as f64 * TABLE_MAX_LOAD)
as usize` is modelled as `len + 1 > cap * 3 / 4`: `cap as f64 * 0.75` is
exact for every capacity below 2^51 and truncation agrees with natural
division. -/

/-- `table.rs::Entry<T>`. -/
inductive Entry (T : Type) where
  | empty : Entry T
  | tombstone : Nat → Entry T
  | data : Nat → T → Entry T
deriving Repr

/-- Is this bucket `Empty`? -/
def Entry.isEmptyB {T : Type} : Entry T → Bool
  | .empty => true
  | _ => false

/-- Is this bucket a `Tombstone`? -/
def Entry.isTombB {T : Type} : Entry T → Bool
  | .tombstone _ => true
  | _ => false

/-- Number of non-`Empty` buckets (`Data` plus `Tombstone`). -/
def countNonEmpty {T : Type} (e : List (Entry T)) : Nat :=
  e.countP fun en => !en.isEmptyB

/-- `table.rs::Table<T>`: the bucket allocation (length = `cap`) plus `len`. -/
structure Table (T : Type) where
  entries : List (Entry T)
  len : Nat

/-- `Table::new()`: null allocation, capacity 0. -/
def Table.new {T : Type} : Table T := { entries := [], len := 0 }

/-- `table.rs::grow_capacity`. -/
def grow_capacity (cap : Nat) : Nat := if cap < 8 then 8 else cap * 2

/-- The loop of `table.rs::get_entry`: walk from bucket `i`, remembering the
first tombstone; stop at a key match (pointer equality) or at the first empty
bucket (returning the remembered tombstone instead, if any).  `fuel` models
the unbounded Rust loop. -/
def probeLoop {T : Type} (e : List (Entry T)) (key : Nat) :
    Nat → Nat → Option Nat → Option Nat
  | 0, _, _ => none
  | fuel + 1, i, tomb =>
    match e.getD i .empty with
    | .empty => some (tomb.getD i)
    | .tombstone _ => probeLoop e key fuel ((i + 1) % e.length) (some (tomb.getD i))
    | .data k _ =>
      if k = key then some i
      else probeLoop e key fuel ((i + 1) % e.length) tomb

/-- `table.rs::get_entry` (Rust requires `cap > 0`; with `e.length = 0`
this returns `none`). -/
def get_entry {T : Type} (hash : Nat → Nat) (e : List (Entry T)) (key : Nat) :
    Option Nat :=
  probeLoop e key e.length (hash key % e.length) none

/-- The rehash loop of `Table::adjust_capacity`: reinsert every `Data` bucket
of the old allocation into the new one (probing the new allocation),
recounting `len` from `Data` buckets alone. -/
def rehashLoop {T : Type} (hash : Nat → Nat) :
    List (Entry T) → List (Entry T) → Nat → Option (List (Entry T) × Nat)
  | [], acc, len => some (acc, len)
  | .data k v :: rest, acc, len => do
    let j ← get_entry hash acc k
    rehashLoop hash rest (acc.set j (.data k v)) (len + 1)
  | .empty :: rest, acc, len => rehashLoop hash rest acc len
  | .tombstone _ :: rest, acc, len => rehashLoop hash rest acc len

/-- `Table::adjust_capacity` (asserts `new_cap > cap`; allocates a fresh
all-empty array and rehashes the `Data` buckets). -/
def Table.adjust_capacity {T : Type} (hash : Nat → Nat) (t : Table T)
    (new_cap : Nat) : Option (Table T) :=
  if t.entries.length < new_cap then
    (rehashLoop hash t.entries (List.replicate new_cap .empty) 0).map
      fun p => { entries := p.1, len := p.2 }
  else none

/-- `Table::set`: grow when `len + 1` would exceed the load factor, then
probe and overwrite the returned bucket; `len` increments only when the
bucket was empty.  Returns the table and the `is_new` flag. -/
def Table.set {T : Type} (hash : Nat → Nat) (t : Table T) (key : Nat)
    (value : T) : Option (Table T × Bool) :=
  Option.bind
    (if t.len + 1 > t.entries.length * 3 / 4 then
      t.adjust_capacity hash (grow_capacity t.entries.length)
    else
      some t)
    fun t =>
  Option.bind (get_entry hash t.entries key) fun j =>
  let result :=
    match t.entries.getD j .empty with
    | .empty => true
    | .tombstone _ => true
    | .data _ _ => false
  let len :=
    match t.entries.getD j .empty with
    | .empty => t.len + 1
    | _ => t.len
  some ({ entries := t.entries.set j (.data key value), len := len }, result)

/-- `Table::get`: the inner `none` is absence; the outer `Option` is probe
termination. -/
def Table.get {T : Type} (hash : Nat → Nat) (t : Table T) (key : Nat) :
    Option (Option T) :=
  if t.len = 0 then some none
  else
    (get_entry hash t.entries key).map fun j =>
      match t.entries.getD j .empty with
      | .data _ v => some v
      | _ => none

/-- `Table::delete`: overwrite a matched bucket with a tombstone; `len` is
not decremented. -/
def Table.delete {T : Type} (hash : Nat → Nat) (t : Table T) (key : Nat) :
    Option (Table T × Bool) :=
  if t.len = 0 then some (t, false)
  else
    (get_entry hash t.entries key).map fun j =>
      match t.entries.getD j .empty with
      | .data _ _ =>
        ({ entries := t.entries.set j (.tombstone key), len := t.len }, true)
      | _ => (t, false)

/-- The loop of `table.rs::Table::find`: like the probe loop but compares
`Data` keys by string content (`**key == *find_key`), skips tombstones
without remembering them, and returns the stored value on a match. -/
def findLoop {T : Type} (e : List (Entry T)) (matchesKey : Nat → Bool) :
    Nat → Nat → Option (Option T)
  | 0, _ => none
  | fuel + 1, i =>
    match e.getD i .empty with
    | .data k v =>
      if matchesKey k then some (some v)
      else findLoop e matchesKey fuel ((i + 1) % e.length)
    | .empty => some none
    | .tombstone _ => findLoop e matchesKey fuel ((i + 1) % e.length)

/-- `Table::find`: content-based lookup used by the string interner.
`queryHash` is `find_key.get_hash()`; `matchesKey k` is the derived
`ObjString` equality of the stored key `k` against the query (content
equality — the cached hash is determined by the content). -/
def Table.find {T : Type} (t : Table T) (queryHash : Nat)
    (matchesKey : Nat → Bool) : Option (Option T) :=
  if t.len = 0 then some none
  else findLoop t.entries matchesKey t.entries.length
    (queryHash % t.entries.length)

end RsLox

namespace RsLox

/-! ## Reasoning about the probe walk -/

/-- Cyclic distance from bucket `s` to bucket `j` in a table of capacity
`cap`: the number of linear-probe steps from `s` that reach `j`. -/
def cycDist (s j cap : Nat) : Nat := (j + cap - s) % cap

theorem cycDist_lt (s j cap : Nat) (h : 0 < cap) : cycDist s j cap < cap :=
  Nat.mod_lt _ h

theorem walk_cycDist (s j cap : Nat) (hs : s < cap) (hj : j < cap) :
    (s + cycDist s j cap) % cap = j := by
  unfold cycDist
  rw [Nat.add_mod_mod]
  have h1 : s + (j + cap - s) = j + cap := by omega
  rw [h1, Nat.add_mod_right, Nat.mod_eq_of_lt hj]

theorem cycDist_walk (s t cap : Nat) (hs : s < cap) (ht : t < cap) :
    cycDist s ((s + t) % cap) cap = t := by
  unfold cycDist
  have h1 : (s + t) % cap + cap - s = (s + t) % cap + (cap - s) := by
    have := Nat.mod_lt (s + t) (show 0 < cap by omega)
    omega
  rw [h1, Nat.mod_add_mod]
  have h2 : s + t + (cap - s) = t + cap := by omega
  rw [h2, Nat.add_mod_right, Nat.mod_eq_of_lt ht]

theorem walk_succ (s t cap : Nat) (h : 0 < cap) :
    ((s + t) % cap + 1) % cap = (s + (t + 1)) % cap := by
  rw [Nat.mod_add_mod, Nat.add_assoc]

theorem countP_set_add {α : Type _} (p : α → Bool) :
    ∀ (l : List α) (i : Nat) (a d : α), i < l.length →
      (l.set i a).countP p + (if p (l.getD i d) then 1 else 0) =
        l.countP p + (if p a then 1 else 0)
  | [], i, a, d, h => by simp at h
  | x :: xs, 0, a, d, _ => by
    simp [List.countP_cons]
    omega
  | x :: xs, i + 1, a, d, h => by
    have ih := countP_set_add p xs i a d (by simpa using h)
    simp [List.countP_cons, List.getD]
    simp [List.countP_cons] at ih
    omega

theorem countNonEmpty_set {T : Type} (e : List (Entry T)) (j : Nat)
    (a : Entry T) (hj : j < e.length) :
    countNonEmpty (e.set j a) +
      (if (e.getD j .empty).isEmptyB then 0 else 1) =
    countNonEmpty e + (if a.isEmptyB then 0 else 1) := by
  have h := countP_set_add (fun en => !en.isEmptyB) e j a .empty hj
  unfold countNonEmpty
  rcases hEB : (e.getD j Entry.empty).isEmptyB <;> rcases hAB : a.isEmptyB <;>
    simp only [hEB, hAB, Bool.not_false, Bool.not_true, if_true, if_false,
      Bool.false_eq_true, Bool.true_eq_false, ite_true, ite_false] at h ⊢ <;>
    omega

theorem exists_empty_of_count_lt {T : Type} (e : List (Entry T))
    (h : countNonEmpty e < e.length) :
    ∃ j, j < e.length ∧ e.getD j .empty = .empty := by
  by_contra hno
  push_neg at hno
  have hall : ∀ a ∈ e, (!a.isEmptyB) = true := by
    intro a ha
    obtain ⟨i, hi⟩ := List.mem_iff_get.mp ha
    have hgd : e.getD i.val .empty = a := by
      rw [List.getD_eq_get?, List.get?_eq_get i.isLt, hi]
      rfl
    have hne := hno i.val i.isLt
    rw [hgd] at hne
    cases a <;> simp [Entry.isEmptyB] <;> exact hne rfl
  have := List.countP_eq_length.mpr hall
  unfold countNonEmpty at h
  omega

end RsLox

namespace RsLox

theorem probeLoop_found {T : Type} (e : List (Entry T)) (key : Nat) (v : T) :
    ∀ (d fuel i : Nat) (tomb : Option Nat),
      i < e.length → d < fuel →
      e.getD ((i + d) % e.length) .empty = .data key v →
      (∀ u, u < d → ∀ k' v',
        e.getD ((i + u) % e.length) .empty = .data k' v' → k' ≠ key) →
      (∀ u, u < d → e.getD ((i + u) % e.length) .empty ≠ .empty) →
      probeLoop e key fuel i tomb = some ((i + d) % e.length) := by
  intro d
  induction d with
  | zero =>
    intro fuel i tomb hi hfuel hdata _ _
    obtain ⟨f, rfl⟩ : ∃ f, fuel = f + 1 := ⟨fuel - 1, by omega⟩
    have hmod : (i + 0) % e.length = i := by
      simpa using Nat.mod_eq_of_lt hi
    rw [hmod] at hdata ⊢
    simp only [probeLoop]
    rw [hdata]
    simp
  | succ d ih =>
    intro fuel i tomb hi hfuel hdata hnk hne
    obtain ⟨f, rfl⟩ : ∃ f, fuel = f + 1 := ⟨fuel - 1, by omega⟩
    have hcap : 0 < e.length := by omega
    have hmod0 : (i + 0) % e.length = i := by simpa using Nat.mod_eq_of_lt hi
    have hstep : ∀ u, ((i + 1) % e.length + u) % e.length =
        (i + (u + 1)) % e.length := by
      intro u
      rw [Nat.mod_add_mod]
      congr 1
      omega
    have hne0 : e.getD i .empty ≠ .empty := by
      have h := hne 0 (by omega)
      rwa [hmod0] at h
    have hi' : (i + 1) % e.length < e.length := Nat.mod_lt _ hcap
    have hdata' : e.getD (((i + 1) % e.length + d) % e.length) .empty
        = .data key v := by rw [hstep d]; exact hdata
    have hnk' : ∀ u, u < d → ∀ k' v',
        e.getD (((i + 1) % e.length + u) % e.length) .empty = .data k' v' →
        k' ≠ key := by
      intro u hu k' v' hd
      rw [hstep u] at hd
      exact hnk (u + 1) (by omega) k' v' hd
    have hne' : ∀ u, u < d →
        e.getD (((i + 1) % e.length + u) % e.length) .empty ≠ .empty := by
      intro u hu
      rw [hstep u]
      exact hne (u + 1) (by omega)
    have hres : ((i + 1) % e.length + d) % e.length = (i + (d + 1)) % e.length :=
      hstep d
    cases hEi : e.getD i .empty with
    | empty => exact absurd hEi hne0
    | tombstone k =>
      have hrec := ih f ((i + 1) % e.length) (some (tomb.getD i)) hi'
        (by omega) hdata' hnk' hne'
      rw [hres] at hrec
      simp only [probeLoop, hEi]
      exact hrec
    | data k v' =>
      have hk : k ≠ key := by
        have h := hnk 0 (by omega) k v'
        rw [hmod0] at h
        exact h hEi
      have hrec := ih f ((i + 1) % e.length) tomb hi' (by omega) hdata' hnk' hne'
      rw [hres] at hrec
      simp only [probeLoop, hEi, if_neg hk]
      exact hrec

/-- State of the remembered-first-tombstone register after `t0` probe steps
from start bucket `s`: either nothing remembered, or a tombstone bucket
passed at some earlier step `mt`. -/
def TombSt {T : Type} (e : List (Entry T)) (s t0 : Nat)
    (tomb : Option Nat) : Prop :=
  tomb = none ∨
    ∃ mt, tomb = some ((s + mt) % e.length) ∧ mt < t0 ∧
      (e.getD ((s + mt) % e.length) .empty).isTombB = true

theorem probeLoop_stops {T : Type} (e : List (Entry T)) (key : Nat) (s m : Nat)
    (hs : s < e.length)
    (hmE : e.getD ((s + m) % e.length) .empty = .empty)
    (hmMin : ∀ u, u < m → e.getD ((s + u) % e.length) .empty ≠ .empty)
    (hm : m < e.length)
    (keyAbsent : ∀ j, j < e.length → ∀ v, e.getD j .empty ≠ .data key v) :
    ∀ (fuel t0 : Nat) (tomb : Option Nat),
      t0 ≤ m → m < t0 + fuel → TombSt e s t0 tomb →
      ∃ j, probeLoop e key fuel ((s + t0) % e.length) tomb = some j ∧
        j < e.length ∧
        (e.getD j .empty = .empty ∨ (e.getD j .empty).isTombB = true) ∧
        ∀ u, u < cycDist s j e.length →
          e.getD ((s + u) % e.length) .empty ≠ .empty := by
  intro fuel
  induction fuel with
  | zero =>
    intro t0 tomb h1 h2 _
    omega
  | succ f ih =>
    intro t0 tomb ht0 hfuel htomb
    have hcap : 0 < e.length := by omega
    have hi : (s + t0) % e.length < e.length := Nat.mod_lt _ hcap
    by_cases heq : t0 = m
    · have hmE' : e.getD ((s + t0) % e.length) .empty = .empty := by
        rw [heq]; exact hmE
      have hmlt : t0 < e.length := by omega
      rcases htomb with rfl | ⟨mt, rfl, hmt, htb⟩
      · refine ⟨(s + t0) % e.length, ?_, Nat.mod_lt _ hcap, Or.inl hmE', ?_⟩
        · simp only [probeLoop]
          rw [hmE']
          rfl
        · intro u hu
          rw [cycDist_walk s t0 e.length hs hmlt] at hu
          exact hmMin u (by omega)
      · refine ⟨(s + mt) % e.length, ?_, Nat.mod_lt _ hcap, Or.inr htb, ?_⟩
        · simp only [probeLoop]
          rw [hmE']
          rfl
        · intro u hu
          rw [cycDist_walk s mt e.length hs (by omega)] at hu
          exact hmMin u (by omega)
    · have ht0m : t0 < m := by omega
      have hiE : e.getD ((s + t0) % e.length) .empty ≠ .empty := hmMin t0 ht0m
      have hwalk : ((s + t0) % e.length + 1) % e.length =
          (s + (t0 + 1)) % e.length := walk_succ s t0 e.length hcap
      cases hEi : e.getD ((s + t0) % e.length) .empty with
      | empty => exact absurd hEi hiE
      | tombstone k =>
        have htomb' : TombSt e s (t0 + 1) (some (tomb.getD ((s + t0) % e.length))) := by
          rcases htomb with h | ⟨mt, rfl, hmt, htb⟩
          · subst h
            exact Or.inr ⟨t0, rfl, by omega, by rw [hEi]; rfl⟩
          · exact Or.inr ⟨mt, rfl, by omega, htb⟩
        obtain ⟨j, hrun, hj⟩ := ih (t0 + 1) (some (tomb.getD ((s + t0) % e.length)))
          (by omega) (by omega) htomb'
        refine ⟨j, ?_, hj⟩
        simp only [probeLoop, hEi]
        rw [hwalk]
        exact hrun
      | data k v =>
        have hk : k ≠ key := by
          intro h
          subst h
          exact keyAbsent _ hi v hEi
        have htomb' : TombSt e s (t0 + 1) tomb := by
          rcases htomb with h | ⟨mt, rfl, hmt, htb⟩
          · exact Or.inl h
          · exact Or.inr ⟨mt, rfl, by omega, htb⟩
        obtain ⟨j, hrun, hj⟩ := ih (t0 + 1) tomb (by omega) (by omega) htomb'
        refine ⟨j, ?_, hj⟩
        simp only [probeLoop, hEi, if_neg hk]
        rw [hwalk]
        exact hrun

end RsLox

namespace RsLox

/-- Classification of `get_entry` under the table's structural invariants:
the probe terminates within `cap` steps and returns either the key's unique
`Data` bucket, or (when the key is absent) an empty or tombstone bucket; in
all cases the walk from the key's home bucket to the result crosses no empty
bucket. -/
theorem get_entry_spec {T : Type} (hash : Nat → Nat) (e : List (Entry T))
    (key : Nat)
    (hcap : 0 < e.length)
    (hEmpty : ∃ jE, jE < e.length ∧ e.getD jE .empty = .empty)
    (huniq : ∀ i j ki kj vi vj, i < e.length → j < e.length →
      e.getD i .empty = .data ki vi → e.getD j .empty = .data kj vj →
      ki = kj → i = j)
    (hchain : ∀ j k v, j < e.length → e.getD j .empty = .data k v →
      ∀ u, u < cycDist (hash k % e.length) j e.length →
        e.getD ((hash k % e.length + u) % e.length) .empty ≠ .empty) :
    ∃ j, get_entry hash e key = some j ∧ j < e.length ∧
      (∀ u, u < cycDist (hash key % e.length) j e.length →
        e.getD ((hash key % e.length + u) % e.length) .empty ≠ .empty) ∧
      ((∃ v, e.getD j .empty = .data key v) ∨
        ((e.getD j .empty = .empty ∨ (e.getD j .empty).isTombB = true) ∧
          ∀ j', j' < e.length → ∀ v, e.getD j' .empty ≠ .data key v)) := by
  have hs : hash key % e.length < e.length := Nat.mod_lt _ hcap
  set s := hash key % e.length with hsdef
  by_cases hpres : ∃ j₀ v, j₀ < e.length ∧ e.getD j₀ .empty = .data key v
  · obtain ⟨j₀, v, hj₀, hd⟩ := hpres
    have hdlt : cycDist s j₀ e.length < e.length := cycDist_lt _ _ _ hcap
    have hwalk : (s + cycDist s j₀ e.length) % e.length = j₀ :=
      walk_cycDist s j₀ e.length hs hj₀
    have hpath : ∀ u, u < cycDist s j₀ e.length →
        e.getD ((s + u) % e.length) .empty ≠ .empty := fun u hu =>
      hchain j₀ key v hj₀ hd u hu
    have hnk : ∀ u, u < cycDist s j₀ e.length → ∀ k' v',
        e.getD ((s + u) % e.length) .empty = .data k' v' → k' ≠ key := by
      intro u hu k' v' hd' hkk
      subst hkk
      have heqj := huniq ((s + u) % e.length) j₀ k' k' v' v
        (Nat.mod_lt _ hcap) hj₀ hd' hd rfl
      have h3 : cycDist s ((s + u) % e.length) e.length = u :=
        cycDist_walk s u e.length hs (by omega)
      rw [heqj] at h3
      omega
    have hrun := probeLoop_found e key v (cycDist s j₀ e.length) e.length s none
      hs hdlt (by rw [hwalk]; exact hd) hnk hpath
    rw [hwalk] at hrun
    exact ⟨j₀, hrun, hj₀, hpath, Or.inl ⟨v, hd⟩⟩
  · push_neg at hpres
    have keyAbsent : ∀ j, j < e.length → ∀ v, e.getD j .empty ≠ .data key v := by
      intro j hj v
      exact hpres j v hj
    obtain ⟨jE, hjE, hE⟩ := hEmpty
    have hPjE : (e.getD ((s + cycDist s jE e.length) % e.length) .empty).isEmptyB
        = true := by
      rw [walk_cycDist s jE e.length hs hjE, hE]
      rfl
    have hPex : ∃ t, (e.getD ((s + t) % e.length) .empty).isEmptyB = true :=
      ⟨_, hPjE⟩
    have hPm := Nat.find_spec hPex
    have hmE : e.getD ((s + Nat.find hPex) % e.length) .empty = .empty := by
      cases hg : e.getD ((s + Nat.find hPex) % e.length) .empty
      · rfl
      all_goals rw [hg] at hPm; simp [Entry.isEmptyB] at hPm
    have hmMin : ∀ u, u < Nat.find hPex →
        e.getD ((s + u) % e.length) .empty ≠ .empty := by
      intro u hu hcon
      have hmin := Nat.find_min hPex hu
      rw [hcon] at hmin
      exact hmin rfl
    have hm : Nat.find hPex < e.length := by
      have h1 : Nat.find hPex ≤ cycDist s jE e.length := Nat.find_le hPjE
      have h2 := cycDist_lt s jE e.length hcap
      omega
    obtain ⟨j, hrun, hjlt, hkind, hpath⟩ := probeLoop_stops e key s
      (Nat.find hPex) hs hmE hmMin hm keyAbsent e.length 0 none
      (by omega) (by omega) (Or.inl rfl)
    rw [show (s + 0) % e.length = s by simpa using Nat.mod_eq_of_lt hs] at hrun
    exact ⟨j, hrun, hjlt, hpath, Or.inr ⟨hkind, keyAbsent⟩⟩

end RsLox

namespace RsLox

/-! ## List-level helper lemmas for bucket allocations -/

theorem getD_set_self {α : Type _} :
    ∀ (l : List α) (j : Nat) (a d : α), j < l.length →
      (l.set j a).getD j d = a
  | [], j, a, d, h => by simp at h
  | x :: xs, 0, a, d, _ => rfl
  | x :: xs, j + 1, a, d, h =>
    getD_set_self xs j a d (by simpa using h)

theorem getD_set_ne {α : Type _} :
    ∀ (l : List α) (i j : Nat) (a d : α), i ≠ j →
      (l.set j a).getD i d = l.getD i d
  | [], i, j, a, d, _ => rfl
  | x :: xs, 0, 0, a, d, h => absurd rfl h
  | x :: xs, i + 1, 0, a, d, _ => rfl
  | x :: xs, 0, j + 1, a, d, _ => rfl
  | x :: xs, i + 1, j + 1, a, d, h =>
    getD_set_ne xs i j a d (by omega)

theorem getD_replicate {α : Type _} :
    ∀ (n j : Nat) (a d : α), j < n → (List.replicate n a).getD j d = a
  | 0, j, a, d, h => by simp at h
  | n + 1, 0, a, d, _ => rfl
  | n + 1, j + 1, a, d, h => getD_replicate n j a d (by omega)

theorem getD_eq_get_of_lt {α : Type _} (l : List α) (i : Nat) (d : α)
    (h : i < l.length) : l.getD i d = l.get ⟨i, h⟩ := by
  rw [List.getD_eq_getElem?_getD, List.getElem?_eq_getElem h]
  rfl

theorem mem_iff_getD {α : Type _} (l : List α) (a d : α) (hne : a ≠ d) :
    a ∈ l ↔ ∃ i, i < l.length ∧ l.getD i d = a := by
  constructor
  · intro h
    obtain ⟨i, hget⟩ := List.mem_iff_get.mp h
    exact ⟨i.val, i.isLt, by rw [getD_eq_get_of_lt l i.val d i.isLt, hget]⟩
  · rintro ⟨i, hi, hget⟩
    rw [getD_eq_get_of_lt l i d hi] at hget
    rw [← hget]
    exact List.get_mem l i hi

/-- The keys of the `Data` buckets of an allocation, in order. -/
def dataKeys {T : Type} : List (Entry T) → List Nat
  | [] => []
  | .data k _ :: rest => k :: dataKeys rest
  | .empty :: rest => dataKeys rest
  | .tombstone _ :: rest => dataKeys rest

theorem dataKeys_length_le {T : Type} :
    ∀ e : List (Entry T), (dataKeys e).length ≤ countNonEmpty e
  | [] => by simp [dataKeys, countNonEmpty]
  | .data k v :: rest => by
    have := dataKeys_length_le rest
    simp [dataKeys, countNonEmpty, List.countP_cons, Entry.isEmptyB] at *
    omega
  | .empty :: rest => by
    have := dataKeys_length_le rest
    simp [dataKeys, countNonEmpty, List.countP_cons, Entry.isEmptyB] at *
    omega
  | .tombstone k :: rest => by
    have := dataKeys_length_le rest
    simp [dataKeys, countNonEmpty, List.countP_cons, Entry.isEmptyB] at *
    omega

theorem mem_dataKeys {T : Type} :
    ∀ (e : List (Entry T)) (k : Nat),
      k ∈ dataKeys e ↔ ∃ i, i < e.length ∧ ∃ v, e.getD i .empty = .data k v
  | [], k => by simp [dataKeys]
  | .data k' v' :: rest, k => by
    simp only [dataKeys, List.mem_cons]
    constructor
    · rintro (rfl | h)
      · exact ⟨0, by simp, v', rfl⟩
      · obtain ⟨i, hi, v, hv⟩ := (mem_dataKeys rest k).mp h
        exact ⟨i + 1, by simpa using hi, v, hv⟩
    · rintro ⟨i, hi, v, hv⟩
      match i with
      | 0 =>
        left
        cases hv
        rfl
      | i + 1 =>
        right
        exact (mem_dataKeys rest k).mpr ⟨i, by simpa using hi, v, hv⟩
  | .empty :: rest, k => by
    simp only [dataKeys]
    rw [mem_dataKeys rest k]
    constructor
    · rintro ⟨i, hi, v, hv⟩
      exact ⟨i + 1, by simpa using hi, v, hv⟩
    · rintro ⟨i, hi, v, hv⟩
      match i with
      | 0 => cases hv
      | i + 1 => exact ⟨i, by simpa using hi, v, hv⟩
  | .tombstone k' :: rest, k => by
    simp only [dataKeys]
    rw [mem_dataKeys rest k]
    constructor
    · rintro ⟨i, hi, v, hv⟩
      exact ⟨i + 1, by simpa using hi, v, hv⟩
    · rintro ⟨i, hi, v, hv⟩
      match i with
      | 0 => cases hv
      | i + 1 => exact ⟨i, by simpa using hi, v, hv⟩

theorem nodup_dataKeys_of_uniq {T : Type} :
    ∀ e : List (Entry T),
      (∀ i j ki kj vi vj, i < e.length → j < e.length →
        e.getD i .empty = .data ki vi → e.getD j .empty = .data kj vj →
        ki = kj → i = j) →
      (dataKeys e).Nodup := by
  intro e
  induction e with
  | nil => intro _; simp [dataKeys]
  | cons x rest ih =>
    intro huniq
    have hrest : (dataKeys rest).Nodup := by
      apply ih
      intro i j ki kj vi vj hi hj hdi hdj hk
      have := huniq (i + 1) (j + 1) ki kj vi vj (by simpa using hi)
        (by simpa using hj) hdi hdj hk
      omega
    cases x with
    | empty => simpa [dataKeys] using hrest
    | tombstone k => simpa [dataKeys] using hrest
    | data k v =>
      simp only [dataKeys, List.nodup_cons]
      refine ⟨?_, hrest⟩
      intro hmem
      obtain ⟨i, hi, v', hv'⟩ := (mem_dataKeys rest k).mp hmem
      have := huniq 0 (i + 1) k k v v' (by simp) (by simpa using hi) rfl hv' rfl
      omega

theorem countNonEmpty_replicate_empty {T : Type} (n : Nat) :
    countNonEmpty (List.replicate n (Entry.empty : Entry T)) = 0 := by
  unfold countNonEmpty
  rw [List.countP_eq_zero]
  intro a ha
  rw [List.eq_of_mem_replicate ha]
  simp [Entry.isEmptyB]

theorem no_data_of_count_zero {T : Type} (e : List (Entry T))
    (h : countNonEmpty e = 0) :
    ∀ j, j < e.length → ∀ k v, e.getD j .empty ≠ .data k v := by
  intro j hj k v hd
  unfold countNonEmpty at h
  rw [List.countP_eq_zero] at h
  have hmem : (Entry.data k v : Entry T) ∈ e := by
    rw [mem_iff_getD e (.data k v) .empty (by intro hc; cases hc)]
    exact ⟨j, hj, hd⟩
  have := h _ hmem
  simp [Entry.isEmptyB] at this

theorem count_pos_of_data {T : Type} (e : List (Entry T)) (j k : Nat) (v : T)
    (hj : j < e.length) (hd : e.getD j .empty = .data k v) :
    0 < countNonEmpty e := by
  by_contra h
  exact no_data_of_count_zero e (by omega) j hj k v hd

end RsLox

namespace RsLox

/-! ## The table invariant and operation correctness -/

/-- Structural invariant of a `Table` under hash function `hash`, maintained
by `set` and `delete` from `Table::new()`:
* `len` counts the non-`Empty` buckets;
* the load factor bound `len ≤ cap * 3 / 4` holds (so some bucket is empty
  whenever `cap > 0`, and every probe terminates);
* each key occupies at most one `Data` bucket;
* the walk from a stored key's home bucket (`hash k % cap`) to its bucket
  crosses no empty bucket (so probes find it). -/
structure TableWF {T : Type} (hash : Nat → Nat) (t : Table T) : Prop where
  len_eq : t.len = countNonEmpty t.entries
  load : 4 * t.len ≤ 3 * t.entries.length
  uniq : ∀ i j ki kj vi vj, i < t.entries.length → j < t.entries.length →
    t.entries.getD i .empty = .data ki vi →
    t.entries.getD j .empty = .data kj vj → ki = kj → i = j
  chain : ∀ j k v, j < t.entries.length →
    t.entries.getD j .empty = .data k v →
    ∀ u, u < cycDist (hash k % t.entries.length) j t.entries.length →
      t.entries.getD
        ((hash k % t.entries.length + u) % t.entries.length) .empty ≠ .empty

/-- The key-value association an allocation represents: `some v` means key
`q` sits in some `Data` bucket with value `v`; `none` means no `Data` bucket
holds `q`. -/
def tblMaps {T : Type} (e : List (Entry T)) (q : Nat) : Option T → Prop
  | some v => ∃ j, j < e.length ∧ e.getD j .empty = .data q v
  | none => ∀ j, j < e.length → ∀ v, e.getD j .empty ≠ .data q v

theorem tableWF_new {T : Type} (hash : Nat → Nat) :
    TableWF hash (Table.new : Table T) := by
  refine ⟨rfl, by simp [Table.new], ?_, ?_⟩ <;>
    intro i <;> intro j <;> intros <;> simp [Table.new] at *

/-- Inserting a key at the bucket `get_entry` returned for it — when the key
was absent — preserves uniqueness and the probe-chain invariant and adds
exactly the new binding. -/
theorem insert_absent_spec {T : Type} (hash : Nat → Nat) (e : List (Entry T))
    (key : Nat) (value : T) (j : Nat)
    (hcap : 0 < e.length) (hj : j < e.length)
    (hpath : ∀ u, u < cycDist (hash key % e.length) j e.length →
      e.getD ((hash key % e.length + u) % e.length) .empty ≠ .empty)
    (hkind : e.getD j .empty = .empty ∨ (e.getD j .empty).isTombB = true)
    (habs : ∀ j', j' < e.length → ∀ v, e.getD j' .empty ≠ .data key v)
    (huniq : ∀ i j' ki kj vi vj, i < e.length → j' < e.length →
      e.getD i .empty = .data ki vi → e.getD j' .empty = .data kj vj →
      ki = kj → i = j')
    (hchain : ∀ j' k v, j' < e.length → e.getD j' .empty = .data k v →
      ∀ u, u < cycDist (hash k % e.length) j' e.length →
        e.getD ((hash k % e.length + u) % e.length) .empty ≠ .empty) :
    (∀ i j' ki kj vi vj,
      i < (e.set j (.data key value)).length →
      j' < (e.set j (.data key value)).length →
      (e.set j (.data key value)).getD i .empty = .data ki vi →
      (e.set j (.data key value)).getD j' .empty = .data kj vj →
      ki = kj → i = j') ∧
    (∀ j' k v, j' < (e.set j (.data key value)).length →
      (e.set j (.data key value)).getD j' .empty = .data k v →
      ∀ u, u < cycDist (hash k % e.length) j' e.length →
        (e.set j (.data key value)).getD
          ((hash k % e.length + u) % e.length) .empty ≠ .empty) ∧
    (∀ k₂ v₂,
      (∃ j₂, j₂ < e.length ∧
        (e.set j (.data key value)).getD j₂ .empty = .data k₂ v₂) ↔
      ((∃ j₂, j₂ < e.length ∧ e.getD j₂ .empty = .data k₂ v₂) ∨
        (k₂ = key ∧ v₂ = value))) := by
  have hset_len : (e.set j (.data key value)).length = e.length :=
    List.length_set e j _
  have hget : ∀ i, i ≠ j →
      (e.set j (.data key value)).getD i .empty = e.getD i .empty :=
    fun i hij => getD_set_ne e i j _ _ hij
  have hgetj : (e.set j (.data key value)).getD j .empty = .data key value :=
    getD_set_self e j _ _ hj
  refine ⟨?_, ?_, ?_⟩
  · -- uniqueness
    intro i j' ki kj vi vj hi hj' hdi hdj hk
    rw [hset_len] at hi hj'
    by_cases hi_eq : i = j <;> by_cases hj_eq : j' = j
    · omega
    · subst hi_eq
      rw [hgetj] at hdi
      cases hdi
      rw [hget j' hj_eq] at hdj
      exact absurd hdj (by subst hk; exact habs j' hj' vj)
    · subst hj_eq
      rw [hgetj] at hdj
      cases hdj
      rw [hget i hi_eq] at hdi
      exact absurd hdi (by subst hk; exact habs i hi vi)
    · rw [hget i hi_eq] at hdi
      rw [hget j' hj_eq] at hdj
      exact huniq i j' ki kj vi vj hi hj' hdi hdj hk
  · -- chain
    intro j' k v hj' hdj' u hu
    rw [hset_len] at hj'
    have hpos : (hash k % e.length + u) % e.length < e.length :=
      Nat.mod_lt _ hcap
    by_cases hj'_eq : j' = j
    · subst hj'_eq
      rw [hgetj] at hdj'
      injection hdj' with hk hv
      subst hk
      subst hv
      by_cases hpos_eq : (hash key % e.length + u) % e.length = j'
      · -- the walk cannot revisit the target bucket before reaching it
        have hs : hash key % e.length < e.length := Nat.mod_lt _ hcap
        have := cycDist_walk (hash key % e.length) u e.length hs
          (by have := cycDist_lt (hash key % e.length) j' e.length hcap; omega)
        rw [hpos_eq] at this
        omega
      · rw [hget _ hpos_eq]
        exact hpath u hu
    · rw [hget j' hj'_eq] at hdj'
      by_cases hpos_eq : (hash k % e.length + u) % e.length = j
      · rw [hpos_eq, hgetj]
        intro hc
        cases hc
      · rw [hget _ hpos_eq]
        exact hchain j' k v hj' hdj' u hu
  · -- bindings
    intro k₂ v₂
    constructor
    · rintro ⟨j₂, hj₂, hd₂⟩
      by_cases hj₂_eq : j₂ = j
      · subst hj₂_eq
        rw [hgetj] at hd₂
        injection hd₂ with hk hv
        exact Or.inr ⟨hk.symm, hv.symm⟩
      · rw [hget j₂ hj₂_eq] at hd₂
        exact Or.inl ⟨j₂, hj₂, hd₂⟩
    · rintro (⟨j₂, hj₂, hd₂⟩ | ⟨rfl, rfl⟩)
      · have hj₂_ne : j₂ ≠ j := by
          intro h
          subst h
          rcases hkind with hk | hk <;> rw [hd₂] at hk <;> cases hk
        exact ⟨j₂, hj₂, by rw [hget j₂ hj₂_ne]; exact hd₂⟩
      · exact ⟨j, hj, hgetj⟩

end RsLox

namespace RsLox

/-- Overwriting the key's own `Data` bucket with a new value preserves
uniqueness and the probe-chain invariant and updates only that binding. -/
theorem insert_found_spec {T : Type} (hash : Nat → Nat) (e : List (Entry T))
    (key : Nat) (value : T) (j : Nat) (vOld : T)
    (hcap : 0 < e.length) (hj : j < e.length)
    (hd : e.getD j .empty = .data key vOld)
    (huniq : ∀ i j' ki kj vi vj, i < e.length → j' < e.length →
      e.getD i .empty = .data ki vi → e.getD j' .empty = .data kj vj →
      ki = kj → i = j')
    (hchain : ∀ j' k v, j' < e.length → e.getD j' .empty = .data k v →
      ∀ u, u < cycDist (hash k % e.length) j' e.length →
        e.getD ((hash k % e.length + u) % e.length) .empty ≠ .empty) :
    (∀ i j' ki kj vi vj,
      i < (e.set j (.data key value)).length →
      j' < (e.set j (.data key value)).length →
      (e.set j (.data key value)).getD i .empty = .data ki vi →
      (e.set j (.data key value)).getD j' .empty = .data kj vj →
      ki = kj → i = j') ∧
    (∀ j' k v, j' < (e.set j (.data key value)).length →
      (e.set j (.data key value)).getD j' .empty = .data k v →
      ∀ u, u < cycDist (hash k % e.length) j' e.length →
        (e.set j (.data key value)).getD
          ((hash k % e.length + u) % e.length) .empty ≠ .empty) ∧
    (∀ k₂ v₂,
      (∃ j₂, j₂ < e.length ∧
        (e.set j (.data key value)).getD j₂ .empty = .data k₂ v₂) ↔
      ((k₂ ≠ key ∧ ∃ j₂, j₂ < e.length ∧ e.getD j₂ .empty = .data k₂ v₂) ∨
        (k₂ = key ∧ v₂ = value))) := by
  have hset_len : (e.set j (.data key value)).length = e.length :=
    List.length_set e j _
  have hget : ∀ i, i ≠ j →
      (e.set j (.data key value)).getD i .empty = e.getD i .empty :=
    fun i hij => getD_set_ne e i j _ _ hij
  have hgetj : (e.set j (.data key value)).getD j .empty = .data key value :=
    getD_set_self e j _ _ hj
  have hkey_only_j : ∀ j₂ v₂, j₂ < e.length →
      e.getD j₂ .empty = .data key v₂ → j₂ = j := by
    intro j₂ v₂ hj₂ hd₂
    exact huniq j₂ j key key v₂ vOld hj₂ hj hd₂ hd rfl
  refine ⟨?_, ?_, ?_⟩
  · intro i j' ki kj vi vj hi hj' hdi hdj hk
    rw [hset_len] at hi hj'
    by_cases hi_eq : i = j <;> by_cases hj_eq : j' = j
    · omega
    · subst hi_eq
      rw [hgetj] at hdi
      injection hdi with hk1 _
      subst hk1
      rw [hget j' hj_eq] at hdj
      have := hkey_only_j j' vj hj' (hk ▸ hdj)
      omega
    · subst hj_eq
      rw [hgetj] at hdj
      injection hdj with hk1 _
      subst hk1
      rw [hget i hi_eq] at hdi
      have := hkey_only_j i vi hi (hk ▸ hdi)
      omega
    · rw [hget i hi_eq] at hdi
      rw [hget j' hj_eq] at hdj
      exact huniq i j' ki kj vi vj hi hj' hdi hdj hk
  · intro j' k v hj' hdj' u hu
    rw [hset_len] at hj'
    by_cases hj'_eq : j' = j
    · subst hj'_eq
      rw [hgetj] at hdj'
      injection hdj' with hk hv
      subst hk
      subst hv
      by_cases hpos_eq : (hash key % e.length + u) % e.length = j'
      · have hs : hash key % e.length < e.length := Nat.mod_lt _ hcap
        have := cycDist_walk (hash key % e.length) u e.length hs
          (by have := cycDist_lt (hash key % e.length) j' e.length hcap; omega)
        rw [hpos_eq] at this
        omega
      · rw [hget _ hpos_eq]
        exact hchain j' key vOld hj' hd u hu
    · rw [hget j' hj'_eq] at hdj'
      by_cases hpos_eq : (hash k % e.length + u) % e.length = j
      · rw [hpos_eq, hgetj]
        intro hc
        cases hc
      · rw [hget _ hpos_eq]
        exact hchain j' k v hj' hdj' u hu
  · intro k₂ v₂
    constructor
    · rintro ⟨j₂, hj₂, hd₂⟩
      by_cases hj₂_eq : j₂ = j
      · subst hj₂_eq
        rw [hgetj] at hd₂
        injection hd₂ with hk hv
        exact Or.inr ⟨hk.symm, hv.symm⟩
      · rw [hget j₂ hj₂_eq] at hd₂
        refine Or.inl ⟨?_, j₂, hj₂, hd₂⟩
        intro hkk
        subst hkk
        exact hj₂_eq (hkey_only_j j₂ v₂ hj₂ hd₂)
    · rintro (⟨hne, j₂, hj₂, hd₂⟩ | ⟨rfl, rfl⟩)
      · have hj₂_ne : j₂ ≠ j := by
          intro h
          subst h
          rw [hd₂] at hd
          injection hd with hk _
          exact hne hk
        exact ⟨j₂, hj₂, by rw [hget j₂ hj₂_ne]; exact hd₂⟩
      · exact ⟨j, hj, hgetj⟩

/-- `Table::get` returns exactly the association the allocation stores. -/
theorem table_get_spec {T : Type} (hash : Nat → Nat) (t : Table T) (key : Nat)
    (ov : Option T) (hwf : TableWF hash t) (hmaps : tblMaps t.entries key ov) :
    Table.get hash t key = some ov := by
  by_cases hlen : t.len = 0
  · have hnone : ov = none := by
      cases ov with
      | none => rfl
      | some v =>
        obtain ⟨j, hj, hd⟩ := hmaps
        have := count_pos_of_data t.entries j key v hj hd
        rw [← hwf.len_eq] at this
        omega
    subst hnone
    simp [Table.get, hlen]
  · have hcap : 0 < t.entries.length := by
      have := hwf.load
      omega
    have hEmpty : ∃ jE, jE < t.entries.length ∧
        t.entries.getD jE .empty = .empty := by
      apply exists_empty_of_count_lt
      rw [← hwf.len_eq]
      have := hwf.load
      omega
    obtain ⟨j, hrun, hjlt, hpath, hres⟩ :=
      get_entry_spec hash t.entries key hcap hEmpty hwf.uniq hwf.chain
    rw [Table.get, if_neg hlen, hrun, Option.map_some']
    rcases hres with ⟨v, hd⟩ | ⟨hkind, habs⟩
    · cases ov with
      | none => exact absurd hd (hmaps j hjlt v)
      | some w =>
        obtain ⟨j', hj', hd'⟩ := hmaps
        have hjj := hwf.uniq j' j key key w v hj' hjlt hd' hd rfl
        subst hjj
        rw [hd'] at hd
        injection hd with _ hv
        rw [hd', hv]
    · cases ov with
      | some w =>
        obtain ⟨j', hj', hd'⟩ := hmaps
        exact absurd hd' (habs j' hj' w)
      | none =>
        rcases hkind with hk | hk
        · rw [hk]
        · cases hg : t.entries.getD j .empty with
          | empty => rfl
          | tombstone k2 => rfl
          | data k2 v2 => rw [hg] at hk; cases hk

/-- `Table::delete` preserves the invariant, removes exactly the deleted
binding, and leaves `len` and the capacity unchanged. -/
theorem table_delete_spec {T : Type} (hash : Nat → Nat) (t : Table T)
    (key : Nat) (hwf : TableWF hash t) :
    ∃ t' flag, Table.delete hash t key = some (t', flag) ∧ TableWF hash t' ∧
      t'.entries.length = t.entries.length ∧ t'.len = t.len ∧
      tblMaps t'.entries key none ∧
      (∀ q, q ≠ key → ∀ ov, tblMaps t.entries q ov → tblMaps t'.entries q ov) := by
  by_cases hlen : t.len = 0
  · refine ⟨t, false, by simp [Table.delete, hlen], hwf, rfl, rfl, ?_, ?_⟩
    · intro j hj v
      exact no_data_of_count_zero t.entries (by rw [← hwf.len_eq]; omega) j hj key v
    · intro q _ ov h
      exact h
  · have hcap : 0 < t.entries.length := by
      have := hwf.load
      omega
    have hEmpty : ∃ jE, jE < t.entries.length ∧
        t.entries.getD jE .empty = .empty := by
      apply exists_empty_of_count_lt
      rw [← hwf.len_eq]
      have := hwf.load
      omega
    obtain ⟨j, hrun, hjlt, hpath, hres⟩ :=
      get_entry_spec hash t.entries key hcap hEmpty hwf.uniq hwf.chain
    rcases hres with ⟨v, hd⟩ | ⟨hkind, habs⟩
    · -- key present: bucket j becomes a tombstone
      set e' := t.entries.set j (.tombstone key) with he'
      have hset_len : e'.length = t.entries.length := List.length_set _ _ _
      have hget : ∀ i, i ≠ j → e'.getD i .empty = t.entries.getD i .empty :=
        fun i hij => getD_set_ne _ i j _ _ hij
      have hgetj : e'.getD j .empty = .tombstone key :=
        getD_set_self _ j _ _ hjlt
      refine ⟨{ entries := e', len := t.len }, true, ?_, ?_, hset_len, rfl, ?_, ?_⟩
      · rw [Table.delete, if_neg hlen, hrun, Option.map_some', hd]
      · refine ⟨?_, ?_, ?_, ?_⟩
        · show t.len = countNonEmpty e'
          have hcnt := countNonEmpty_set t.entries j (.tombstone key) hjlt
          rw [← he', hd] at hcnt
          simp [Entry.isEmptyB] at hcnt
          rw [hwf.len_eq]
          omega
        · show 4 * t.len ≤ 3 * e'.length
          rw [hset_len]
          exact hwf.load
        · intro i j' ki kj vi vj hi hj' hdi hdj hk
          rw [hset_len] at hi hj'
          have hi_ne : i ≠ j := by
            intro h
            subst h
            rw [hgetj] at hdi
            cases hdi
          have hj_ne : j' ≠ j := by
            intro h
            subst h
            rw [hgetj] at hdj
            cases hdj
          rw [hget i hi_ne] at hdi
          rw [hget j' hj_ne] at hdj
          exact hwf.uniq i j' ki kj vi vj hi hj' hdi hdj hk
        · intro j' k v' hj' hdj' u hu
          rw [hset_len] at hj' hu ⊢
          have hj_ne : j' ≠ j := by
            intro h
            subst h
            rw [hgetj] at hdj'
            cases hdj'
          rw [hget j' hj_ne] at hdj'
          by_cases hpos_eq : (hash k % t.entries.length + u) % t.entries.length = j
          · rw [hpos_eq, hgetj]
            intro hc
            cases hc
          · rw [hget _ hpos_eq]
            exact hwf.chain j' k v' hj' hdj' u hu
      · intro j' hj' v' hd'
        rw [hset_len] at hj'
        by_cases hj_ne : j' = j
        · subst hj_ne
          rw [hgetj] at hd'
          cases hd'
        · rw [hget j' hj_ne] at hd'
          exact hj_ne (hwf.uniq j' j key key v' v hj' hjlt hd' hd rfl)
      · intro q hq ov hmaps
        cases ov with
        | some w =>
          obtain ⟨j', hj', hd'⟩ := hmaps
          have hj_ne : j' ≠ j := by
            intro h
            subst h
            rw [hd'] at hd
            injection hd with hk _
            exact hq hk
          exact ⟨j', by rw [hset_len]; exact hj', by rw [hget j' hj_ne]; exact hd'⟩
        | none =>
          intro j' hj' v' hd'
          rw [hset_len] at hj'
          by_cases hj_ne : j' = j
          · subst hj_ne
            rw [hgetj] at hd'
            cases hd'
          · rw [hget j' hj_ne] at hd'
            exact hmaps j' hj' v' hd'
    · -- key absent: table unchanged
      refine ⟨t, false, ?_, hwf, rfl, rfl, habs, fun q _ ov h => h⟩
      rw [Table.delete, if_neg hlen, hrun, Option.map_some']
      rcases hkind with hk | hk
      · rw [hk]
      · cases hg : t.entries.getD j .empty with
        | empty => rfl
        | tombstone k2 => rfl
        | data k2 v2 => rw [hg] at hk; cases hk

end RsLox

namespace RsLox

/-- Correctness of the rehash loop of `adjust_capacity`: starting from a
tombstone-free allocation with enough spare room, reinserting the `Data`
buckets of `old` terminates, keeps the structural invariants, recounts `len`
as the number of `Data` buckets, and ends holding exactly the original
bindings plus those of `old`. -/
theorem rehashLoop_spec {T : Type} (hash : Nat → Nat) :
    ∀ (old acc : List (Entry T)) (len : Nat),
      len = countNonEmpty acc →
      countNonEmpty acc + (dataKeys old).length < acc.length →
      (∀ j, j < acc.length → (acc.getD j .empty).isTombB = false) →
      (∀ i j ki kj vi vj, i < acc.length → j < acc.length →
        acc.getD i .empty = .data ki vi → acc.getD j .empty = .data kj vj →
        ki = kj → i = j) →
      (∀ j k v, j < acc.length → acc.getD j .empty = .data k v →
        ∀ u, u < cycDist (hash k % acc.length) j acc.length →
          acc.getD ((hash k % acc.length + u) % acc.length) .empty ≠ .empty) →
      (∀ k, (∃ j, j < acc.length ∧ ∃ v, acc.getD j .empty = .data k v) →
        k ∉ dataKeys old) →
      (dataKeys old).Nodup →
      ∃ eF lenF, rehashLoop hash old acc len = some (eF, lenF) ∧
        eF.length = acc.length ∧
        lenF = countNonEmpty eF ∧
        lenF = len + (dataKeys old).length ∧
        (∀ j, j < eF.length → (eF.getD j .empty).isTombB = false) ∧
        (∀ i j ki kj vi vj, i < eF.length → j < eF.length →
          eF.getD i .empty = .data ki vi → eF.getD j .empty = .data kj vj →
          ki = kj → i = j) ∧
        (∀ j k v, j < eF.length → eF.getD j .empty = .data k v →
          ∀ u, u < cycDist (hash k % eF.length) j eF.length →
            eF.getD ((hash k % eF.length + u) % eF.length) .empty ≠ .empty) ∧
        (∀ k v, (∃ j, j < eF.length ∧ eF.getD j .empty = .data k v) ↔
          ((∃ j, j < acc.length ∧ acc.getD j .empty = .data k v) ∨
            .data k v ∈ old)) := by
  intro old
  induction old with
  | nil =>
    intro acc len hlen hroom hnotomb huniq hchain hdisj hnodup
    refine ⟨acc, len, rfl, rfl, hlen, by simp [dataKeys], hnotomb, huniq,
      hchain, ?_⟩
    intro k v
    simp
  | cons hd0 rest ih =>
    intro acc len hlen hroom hnotomb huniq hchain hdisj hnodup
    cases hd0 with
    | empty =>
      obtain ⟨eF, lenF, hrun, h1, h2, h3, h4, h5, h6, h7⟩ :=
        ih acc len hlen (by simpa [dataKeys] using hroom) hnotomb huniq hchain
          (by simpa [dataKeys] using hdisj) (by simpa [dataKeys] using hnodup)
      refine ⟨eF, lenF, hrun, h1, h2, by simpa [dataKeys] using h3, h4, h5,
        h6, ?_⟩
      intro k v
      rw [h7 k v]
      simp
    | tombstone k0 =>
      obtain ⟨eF, lenF, hrun, h1, h2, h3, h4, h5, h6, h7⟩ :=
        ih acc len hlen (by simpa [dataKeys] using hroom) hnotomb huniq hchain
          (by simpa [dataKeys] using hdisj) (by simpa [dataKeys] using hnodup)
      refine ⟨eF, lenF, hrun, h1, h2, by simpa [dataKeys] using h3, h4, h5,
        h6, ?_⟩
      intro k v
      rw [h7 k v]
      simp
    | data k v =>
      have hkeys : dataKeys (Entry.data k v :: rest) = k :: dataKeys rest := rfl
      have hcapacc : 0 < acc.length := by
        rw [hkeys] at hroom
        simp at hroom
        omega
      have hEmpty : ∃ jE, jE < acc.length ∧ acc.getD jE .empty = .empty := by
        apply exists_empty_of_count_lt
        rw [hkeys] at hroom
        simp at hroom
        omega
      obtain ⟨j, hrun, hjlt, hpath, hres⟩ :=
        get_entry_spec hash acc k hcapacc hEmpty huniq hchain
      have hknotin : k ∈ dataKeys (Entry.data k v :: rest) := by
        rw [hkeys]
        exact List.mem_cons_self k _
      rcases hres with ⟨v', hd⟩ | ⟨hkind, habs⟩
      · exact absurd hknotin (hdisj k ⟨j, hjlt, v', hd⟩)
      · have hEj : acc.getD j .empty = .empty := by
          rcases hkind with h | h
          · exact h
          · rw [hnotomb j hjlt] at h
            cases h
        obtain ⟨huniq', hchain', hmem'⟩ :=
          insert_absent_spec hash acc k v j hcapacc hjlt hpath hkind habs
            huniq hchain
        have hlen_set : (acc.set j (.data k v)).length = acc.length :=
          List.length_set acc j _
        have hcnt' : countNonEmpty (acc.set j (.data k v)) =
            countNonEmpty acc + 1 := by
          have hc := countNonEmpty_set acc j (.data k v) hjlt
          rw [hEj] at hc
          simp [Entry.isEmptyB] at hc
          omega
        have hnodup' := (List.nodup_cons.mp (hkeys ▸ hnodup)).2
        have hknotrest := (List.nodup_cons.mp (hkeys ▸ hnodup)).1
        have harg_len : len + 1 = countNonEmpty (acc.set j (.data k v)) := by
          rw [hcnt', hlen]
        have harg_room : countNonEmpty (acc.set j (.data k v)) +
            (dataKeys rest).length < (acc.set j (.data k v)).length := by
          rw [hcnt', hlen_set]
          rw [hkeys] at hroom
          simp at hroom
          omega
        have harg_notomb : ∀ j', j' < (acc.set j (.data k v)).length →
            ((acc.set j (.data k v)).getD j' .empty).isTombB = false := by
          intro j' hj'
          rw [hlen_set] at hj'
          by_cases hj'_eq : j' = j
          · subst hj'_eq
            rw [getD_set_self acc j' _ _ hjlt]
            rfl
          · rw [getD_set_ne acc j' j _ _ hj'_eq]
            exact hnotomb j' hj'
        have harg_uniq : ∀ i j' ki kj vi vj,
            i < (acc.set j (.data k v)).length →
            j' < (acc.set j (.data k v)).length →
            (acc.set j (.data k v)).getD i .empty = .data ki vi →
            (acc.set j (.data k v)).getD j' .empty = .data kj vj →
            ki = kj → i = j' := huniq'
        have harg_chain : ∀ j' k' v',
            j' < (acc.set j (.data k v)).length →
            (acc.set j (.data k v)).getD j' .empty = .data k' v' →
            ∀ u, u < cycDist (hash k' % (acc.set j (.data k v)).length) j'
              (acc.set j (.data k v)).length →
            (acc.set j (.data k v)).getD
              ((hash k' % (acc.set j (.data k v)).length + u) %
                (acc.set j (.data k v)).length) .empty ≠ .empty := by
          intro j' k' v' hj' hd' u hu
          rw [hlen_set] at hu ⊢
          exact hchain' j' k' v' hj' hd' u hu
        have harg_disj : ∀ k₀,
            (∃ j₀, j₀ < (acc.set j (.data k v)).length ∧
              ∃ v₀, (acc.set j (.data k v)).getD j₀ .empty = .data k₀ v₀) →
            k₀ ∉ dataKeys rest := by
          intro k₀ ⟨j₀, hj₀, v₀, hd₀⟩
          rw [hlen_set] at hj₀
          have := (hmem' k₀ v₀).mp ⟨j₀, hj₀, hd₀⟩
          rcases this with ⟨j₁, hj₁, hd₁⟩ | ⟨rfl, rfl⟩
          · have hnot := hdisj k₀ ⟨j₁, hj₁, v₀, hd₁⟩
            rw [hkeys] at hnot
            intro hc
            exact hnot (List.mem_cons_of_mem _ hc)
          · exact hknotrest
        obtain ⟨eF, lenF, hrunF, h1, h2, h3, h4, h5, h6, h7⟩ :=
          ih (acc.set j (.data k v)) (len + 1) harg_len harg_room harg_notomb
            harg_uniq harg_chain harg_disj hnodup'
        refine ⟨eF, lenF, ?_, by rw [h1, hlen_set], h2, ?_, h4, h5, h6, ?_⟩
        · simp only [rehashLoop, hrun, Option.some_bind]
          exact hrunF
        · rw [h3, hkeys]
          simp
          omega
        · intro k₂ v₂
          rw [h7 k₂ v₂]
          constructor
          · rintro (hin | hin)
            · rw [hlen_set] at hin
              rcases (hmem' k₂ v₂).mp hin with h | ⟨rfl, rfl⟩
              · exact Or.inl h
              · exact Or.inr (List.mem_cons_self _ _)
            · exact Or.inr (List.mem_cons_of_mem _ hin)
          · rintro (hin | hin)
            · left
              rw [hlen_set]
              exact (hmem' k₂ v₂).mpr (Or.inl hin)
            · rcases List.mem_cons.mp hin with heq | hin2
              · left
                rw [hlen_set]
                injection heq with hk2 hv2
                exact (hmem' k₂ v₂).mpr (Or.inr ⟨hk2, hv2⟩)
              · exact Or.inr hin2

end RsLox

namespace RsLox

/-- A key-value pair stored in some `Data` bucket. -/
def hasBinding {T : Type} (e : List (Entry T)) (k : Nat) (v : T) : Prop :=
  ∃ j, j < e.length ∧ e.getD j .empty = .data k v

/-- `Table::adjust_capacity` preserves the invariant and all bindings, drops
tombstones, and recounts `len` (which can only shrink). -/
theorem adjust_capacity_spec {T : Type} (hash : Nat → Nat) (t : Table T)
    (newCap : Nat) (hwf : TableWF hash t) (hlt : t.entries.length < newCap) :
    ∃ t', t.adjust_capacity hash newCap = some t' ∧ TableWF hash t' ∧
      t'.entries.length = newCap ∧ t'.len ≤ t.len ∧
      (∀ q ov, tblMaps t.entries q ov → tblMaps t'.entries q ov) ∧
      (∀ k v, hasBinding t'.entries k v → hasBinding t.entries k v) := by
  have hrep_len : (List.replicate newCap (Entry.empty : Entry T)).length =
      newCap := List.length_replicate _ _
  have hrep_get : ∀ j, j < newCap →
      (List.replicate newCap (Entry.empty : Entry T)).getD j .empty = .empty :=
    fun j hj => getD_replicate newCap j _ _ hj
  have hdk_le : (dataKeys t.entries).length ≤ t.len := by
    rw [hwf.len_eq]
    exact dataKeys_length_le t.entries
  have hlen_le_cap : t.len ≤ t.entries.length := by
    have := hwf.load
    omega
  obtain ⟨eF, lenF, hrun, h1, h2, h3, h4, h5, h6, h7⟩ :=
    rehashLoop_spec hash t.entries (List.replicate newCap .empty) 0
      (countNonEmpty_replicate_empty newCap).symm
      (by rw [countNonEmpty_replicate_empty newCap, hrep_len]; omega)
      (by rw [hrep_len]
          intro j hj
          rw [hrep_get j hj]
          rfl)
      (by rw [hrep_len]
          intro i j ki kj vi vj hi hj hdi
          rw [hrep_get i hi] at hdi
          cases hdi)
      (by rw [hrep_len]
          intro j k v hj hd
          rw [hrep_get j hj] at hd
          cases hd)
      (by rw [hrep_len]
          rintro k ⟨j, hj, v, hd⟩
          rw [hrep_get j hj] at hd
          cases hd)
      (nodup_dataKeys_of_uniq t.entries hwf.uniq)
  rw [hrep_len] at h1
  have hlenF_le : lenF ≤ t.len := by
    rw [h3]
    simp
    omega
  refine ⟨{ entries := eF, len := lenF }, ?_, ⟨h2, ?_, h5, h6⟩, h1, hlenF_le,
    ?_, ?_⟩
  · rw [Table.adjust_capacity, if_pos hlt, hrun]
    rfl
  · show 4 * lenF ≤ 3 * eF.length
    rw [h1]
    have := hwf.load
    omega
  · intro q ov hmaps
    cases ov with
    | some v =>
      obtain ⟨j₀, hj₀, hd₀⟩ := hmaps
      show ∃ j, j < eF.length ∧ eF.getD j .empty = .data q v
      apply (h7 q v).mpr
      right
      rw [mem_iff_getD t.entries (.data q v) .empty (by intro hc; cases hc)]
      exact ⟨j₀, hj₀, hd₀⟩
    | none =>
      intro j hj v hd
      rcases (h7 q v).mp ⟨j, hj, hd⟩ with ⟨j₁, hj₁, hd₁⟩ | hmem
      · rw [hrep_len] at hj₁
        rw [hrep_get j₁ hj₁] at hd₁
        cases hd₁
      · rw [mem_iff_getD t.entries (.data q v) .empty
          (by intro hc; cases hc)] at hmem
        obtain ⟨j₀, hj₀, hd₀⟩ := hmem
        exact hmaps j₀ hj₀ v hd₀
  · intro k v hb
    unfold hasBinding at hb ⊢
    obtain ⟨j, hj, hd⟩ := hb
    rcases (h7 k v).mp ⟨j, hj, hd⟩ with ⟨j₁, hj₁, hd₁⟩ | hmem
    · rw [hrep_len] at hj₁
      rw [hrep_get j₁ hj₁] at hd₁
      cases hd₁
    · rw [mem_iff_getD t.entries (.data k v) .empty
        (by intro hc; cases hc)] at hmem
      exact hmem

end RsLox

namespace RsLox

/-- The conditional grow at the start of `Table::set`: afterwards the load
factor has room for one more insertion. -/
theorem set_grow_step {T : Type} (hash : Nat → Nat) (t : Table T)
    (hwf : TableWF hash t) :
    ∃ t₁, (if t.len + 1 > t.entries.length * 3 / 4 then
            t.adjust_capacity hash (grow_capacity t.entries.length)
          else some t) = some t₁ ∧
      TableWF hash t₁ ∧ t₁.len + 1 ≤ t₁.entries.length * 3 / 4 ∧
      (∀ q ov, tblMaps t.entries q ov → tblMaps t₁.entries q ov) ∧
      (∀ k v, hasBinding t₁.entries k v → hasBinding t.entries k v) := by
  by_cases hgrow : t.len + 1 > t.entries.length * 3 / 4
  · have hlt : t.entries.length < grow_capacity t.entries.length := by
      unfold grow_capacity
      split <;> omega
    obtain ⟨t₁, hadj, hwf₁, hc₁, hle₁, hm₁, hr₁⟩ :=
      adjust_capacity_spec hash t (grow_capacity t.entries.length) hwf hlt
    refine ⟨t₁, by rw [if_pos hgrow, hadj], hwf₁, ?_, hm₁, hr₁⟩
    rw [hc₁]
    unfold grow_capacity
    have hload := hwf.load
    split <;> omega
  · exact ⟨t, by rw [if_neg hgrow], hwf, by omega, fun q ov h => h,
      fun k v h => h⟩

/-- `Table::set` terminates, preserves the invariant, stores the binding,
and preserves every other binding. -/
theorem table_set_spec {T : Type} (hash : Nat → Nat) (t : Table T)
    (key : Nat) (value : T) (hwf : TableWF hash t) :
    ∃ t' flag, Table.set hash t key value = some (t', flag) ∧
      TableWF hash t' ∧ tblMaps t'.entries key (some value) ∧
      (∀ q, q ≠ key → ∀ ov,
        tblMaps t.entries q ov → tblMaps t'.entries q ov) ∧
      (∀ k₂ v₂, hasBinding t'.entries k₂ v₂ →
        hasBinding t.entries k₂ v₂ ∨ (k₂ = key ∧ v₂ = value)) := by
  obtain ⟨t₁, hstep, hwf₁, hready, hm₁, hr₁⟩ := set_grow_step hash t hwf
  have hcap : 0 < t₁.entries.length := by omega
  have hEmpty : ∃ jE, jE < t₁.entries.length ∧
      t₁.entries.getD jE .empty = .empty := by
    apply exists_empty_of_count_lt
    rw [← hwf₁.len_eq]
    omega
  obtain ⟨j, hrun, hjlt, hpath, hres⟩ :=
    get_entry_spec hash t₁.entries key hcap hEmpty hwf₁.uniq hwf₁.chain
  have hset_len : (t₁.entries.set j (.data key value)).length =
      t₁.entries.length := List.length_set _ _ _
  have hgetj : (t₁.entries.set j (.data key value)).getD j .empty =
      .data key value := getD_set_self _ j _ _ hjlt
  have hmap_key :
      tblMaps (t₁.entries.set j (.data key value)) key (some value) :=
    ⟨j, by rw [hset_len]; exact hjlt, hgetj⟩
  rcases hres with ⟨v0, hd⟩ | ⟨hkind, habs⟩
  · -- key already present at bucket j: overwrite, len unchanged, flag false
    obtain ⟨huniq', hchain', hmem'⟩ :=
      insert_found_spec hash t₁.entries key value j v0 hcap hjlt hd
        hwf₁.uniq hwf₁.chain
    refine ⟨{ entries := t₁.entries.set j (.data key value), len := t₁.len },
      false, ?_, ⟨?_, ?_, huniq', ?_⟩, hmap_key, ?_, ?_⟩
    · simp only [Table.set, hstep, Option.some_bind, hrun, hd]
    · show t₁.len = countNonEmpty (t₁.entries.set j (.data key value))
      have hc := countNonEmpty_set t₁.entries j (.data key value) hjlt
      rw [hd] at hc
      simp [Entry.isEmptyB] at hc
      rw [hwf₁.len_eq]
      omega
    · show 4 * t₁.len ≤ 3 * (t₁.entries.set j (.data key value)).length
      rw [hset_len]
      exact hwf₁.load
    · intro j' k v hj' hd' u hu
      rw [hset_len] at hu ⊢
      exact hchain' j' k v hj' hd' u hu
    · intro q hq ov hmapsq
      have hmapsq₁ := hm₁ q ov hmapsq
      cases ov with
      | some w =>
        obtain ⟨j₂, hj₂, hd₂⟩ := hmapsq₁
        obtain ⟨j₃, hj₃, hd₃⟩ := (hmem' q w).mpr (Or.inl ⟨hq, j₂, hj₂, hd₂⟩)
        exact ⟨j₃, by rw [hset_len]; exact hj₃, hd₃⟩
      | none =>
        intro j₂ hj₂ w hd₂
        rw [hset_len] at hj₂
        rcases (hmem' q w).mp ⟨j₂, hj₂, hd₂⟩ with ⟨_, j₃, hj₃, hd₃⟩ | ⟨hqk, _⟩
        · exact hmapsq₁ j₃ hj₃ w hd₃
        · exact hq hqk
    · intro k₂ v₂ hb
      unfold hasBinding at hb
      obtain ⟨j₂, hj₂, hd₂⟩ := hb
      rw [hset_len] at hj₂
      rcases (hmem' k₂ v₂).mp ⟨j₂, hj₂, hd₂⟩ with ⟨_, j₃, hj₃, hd₃⟩ | ⟨hk, hv⟩
      · exact Or.inl (hr₁ k₂ v₂ ⟨j₃, hj₃, hd₃⟩)
      · exact Or.inr ⟨hk, hv⟩
  · -- key absent: bucket j is empty or a tombstone
    obtain ⟨huniq', hchain', hmem'⟩ :=
      insert_absent_spec hash t₁.entries key value j hcap hjlt hpath hkind habs
        hwf₁.uniq hwf₁.chain
    have hchain_t' : ∀ j' k v,
        j' < (t₁.entries.set j (.data key value)).length →
        (t₁.entries.set j (.data key value)).getD j' .empty = .data k v →
        ∀ u, u < cycDist
          (hash k % (t₁.entries.set j (.data key value)).length) j'
          (t₁.entries.set j (.data key value)).length →
        (t₁.entries.set j (.data key value)).getD
          ((hash k % (t₁.entries.set j (.data key value)).length + u) %
            (t₁.entries.set j (.data key value)).length) .empty ≠ .empty := by
      intro j' k v hj' hd' u hu
      rw [hset_len] at hu ⊢
      exact hchain' j' k v hj' hd' u hu
    have hmap_pres : ∀ q, q ≠ key → ∀ ov, tblMaps t.entries q ov →
        tblMaps (t₁.entries.set j (.data key value)) q ov := by
      intro q hq ov hmapsq
      have hmapsq₁ := hm₁ q ov hmapsq
      cases ov with
      | some w =>
        obtain ⟨j₂, hj₂, hd₂⟩ := hmapsq₁
        obtain ⟨j₃, hj₃, hd₃⟩ := (hmem' q w).mpr (Or.inl ⟨j₂, hj₂, hd₂⟩)
        exact ⟨j₃, by rw [hset_len]; exact hj₃, hd₃⟩
      | none =>
        intro j₂ hj₂ w hd₂
        rw [hset_len] at hj₂
        rcases (hmem' q w).mp ⟨j₂, hj₂, hd₂⟩ with ⟨j₃, hj₃, hd₃⟩ | ⟨hqk, _⟩
        · exact hmapsq₁ j₃ hj₃ w hd₃
        · exact hq hqk
    have hrev' : ∀ k₂ v₂,
        hasBinding (t₁.entries.set j (.data key value)) k₂ v₂ →
        hasBinding t.entries k₂ v₂ ∨ (k₂ = key ∧ v₂ = value) := by
      intro k₂ v₂ hb
      unfold hasBinding at hb
      obtain ⟨j₂, hj₂, hd₂⟩ := hb
      rw [hset_len] at hj₂
      rcases (hmem' k₂ v₂).mp ⟨j₂, hj₂, hd₂⟩ with ⟨j₃, hj₃, hd₃⟩ | ⟨hk, hv⟩
      · exact Or.inl (hr₁ k₂ v₂ ⟨j₃, hj₃, hd₃⟩)
      · exact Or.inr ⟨hk, hv⟩
    cases hEj : t₁.entries.getD j .empty with
    | data k2 v2 =>
      exfalso
      rcases hkind with h | h <;> rw [hEj] at h <;> cases h
    | empty =>
      refine ⟨{ entries := t₁.entries.set j (.data key value),
                len := t₁.len + 1 },
        true, ?_, ⟨?_, ?_, huniq', hchain_t'⟩, hmap_key, hmap_pres, hrev'⟩
      · simp only [Table.set, hstep, Option.some_bind, hrun, hEj]
      · show t₁.len + 1 = countNonEmpty (t₁.entries.set j (.data key value))
        have hc := countNonEmpty_set t₁.entries j (.data key value) hjlt
        rw [hEj] at hc
        simp [Entry.isEmptyB] at hc
        rw [hwf₁.len_eq]
        omega
      · show 4 * (t₁.len + 1) ≤
          3 * (t₁.entries.set j (.data key value)).length
        rw [hset_len]
        omega
    | tombstone k2 =>
      refine ⟨{ entries := t₁.entries.set j (.data key value),
                len := t₁.len },
        true, ?_, ⟨?_, ?_, huniq', hchain_t'⟩, hmap_key, hmap_pres, hrev'⟩
      · simp only [Table.set, hstep, Option.some_bind, hrun, hEj]
      · show t₁.len = countNonEmpty (t₁.entries.set j (.data key value))
        have hc := countNonEmpty_set t₁.entries j (.data key value) hjlt
        rw [hEj] at hc
        simp [Entry.isEmptyB] at hc
        rw [hwf₁.len_eq]
        omega
      · show 4 * t₁.len ≤ 3 * (t₁.entries.set j (.data key value)).length
        rw [hset_len]
        omega

end RsLox

namespace RsLox

/-- A `set` or `delete` request issued against `table.rs::Table`. -/
inductive TableOp (T : Type) where
  | set : Nat → T → TableOp T
  | del : Nat → TableOp T

/-- Run one operation, discarding the boolean result (`none` means the
probe loop would not have terminated). -/
def applyOp {T : Type} (hash : Nat → Nat) (t : Table T) :
    TableOp T → Option (Table T)
  | .set k v => (Table.set hash t k v).map Prod.fst
  | .del k => (Table.delete hash t k).map Prod.fst

/-- Run a sequence of operations from a starting table. -/
def runOps {T : Type} (hash : Nat → Nat) :
    Table T → List (TableOp T) → Option (Table T)
  | t, [] => some t
  | t, op :: rest => (applyOp hash t op).bind fun t' => runOps hash t' rest

/-- The reference model of the table: a finite map as a function, updated
in operation order — the value of `q` is the one of its last `set` not
followed by a `delete`, absent otherwise. -/
def modelFun {T : Type} (m : Nat → Option T) :
    List (TableOp T) → Nat → Option T
  | [], q => m q
  | .set k v :: rest, q =>
    modelFun (fun q' => if q' = k then some v else m q') rest q
  | .del k :: rest, q =>
    modelFun (fun q' => if q' = k then none else m q') rest q

/-- Running any operation sequence from an invariant-satisfying table
terminates, preserves the invariant, and tracks the reference model. -/
theorem runOps_spec {T : Type} (hash : Nat → Nat) :
    ∀ (ops : List (TableOp T)) (t : Table T) (m : Nat → Option T),
      TableWF hash t → (∀ q, tblMaps t.entries q (m q)) →
      ∃ tF, runOps hash t ops = some tF ∧ TableWF hash tF ∧
        ∀ q, tblMaps tF.entries q (modelFun m ops q) := by
  intro ops
  induction ops with
  | nil =>
    intro t m hwf hm
    exact ⟨t, rfl, hwf, hm⟩
  | cons op rest ih =>
    intro t m hwf hm
    cases op with
    | set k v =>
      obtain ⟨t', flag, hrun, hwf', hkey, hpres, _⟩ :=
        table_set_spec hash t k v hwf
      have hm' : ∀ q, tblMaps t'.entries q
          (if q = k then some v else m q) := by
        intro q
        by_cases hq : q = k
        · subst hq
          simpa using hkey
        · rw [if_neg hq]
          exact hpres q hq (m q) (hm q)
      obtain ⟨tF, hrunF, hwfF, hmF⟩ :=
        ih t' (fun q' => if q' = k then some v else m q') hwf' hm'
      refine ⟨tF, ?_, hwfF, hmF⟩
      simp only [runOps, applyOp, hrun, Option.map_some', Option.some_bind]
      exact hrunF
    | del k =>
      obtain ⟨t', flag, hrun, hwf', _, _, hkey, hpres⟩ :=
        table_delete_spec hash t k hwf
      have hm' : ∀ q, tblMaps t'.entries q
          (if q = k then none else m q) := by
        intro q
        by_cases hq : q = k
        · subst hq
          simpa using hkey
        · rw [if_neg hq]
          exact hpres q hq (m q) (hm q)
      obtain ⟨tF, hrunF, hwfF, hmF⟩ :=
        ih t' (fun q' => if q' = k then none else m q') hwf' hm'
      refine ⟨tF, ?_, hwfF, hmF⟩
      simp only [runOps, applyOp, hrun, Option.map_some', Option.some_bind]
      exact hrunF

/-- **C5**: for any sequence of hash-table `set`/`delete` operations
starting from the empty table, every probe terminates, and for every key
`q`, `get` returns exactly what the last operation on `q` dictates: the
value of the last `set(q, v)` not followed by a `delete(q)`, and absence
for keys never set or last deleted — across arbitrary capacity growths
and tombstone reuse. -/
theorem c5_table_get_matches_model {T : Type} (hash : Nat → Nat)
    (ops : List (TableOp T)) :
    ∃ t, runOps hash Table.new ops = some t ∧
      ∀ q, Table.get hash t q = some (modelFun (fun _ => none) ops q) := by
  obtain ⟨t, hrun, hwf, hm⟩ := runOps_spec hash ops Table.new (fun _ => none)
    (tableWF_new hash)
    (fun q j hj v hd => absurd hj (by simp [Table.new]))
  exact ⟨t, hrun, fun q => table_get_spec hash t q _ hwf (hm q)⟩

/-- **C9**: starting from `Table::new()`, after any sequence of `set` and
`delete` operations the stored `len` equals the number of non-`Empty`
buckets (`Data` plus `Tombstone`) and never exceeds 0.75 × capacity, so
(once any bucket exists) at least one `Empty` bucket remains and every
probe loop terminates — witnessed by the run never diverging. -/
theorem c9_table_len_load_invariant {T : Type} (hash : Nat → Nat)
    (ops : List (TableOp T)) :
    ∃ t, runOps hash Table.new ops = some t ∧
      t.len = countNonEmpty t.entries ∧
      4 * t.len ≤ 3 * t.entries.length ∧
      (t.entries.length = 0 ∨
        ∃ i, i < t.entries.length ∧ t.entries.getD i .empty = .empty) := by
  obtain ⟨t, hrun, hwf, _⟩ := runOps_spec hash ops Table.new (fun _ => none)
    (tableWF_new hash)
    (fun q j hj v hd => absurd hj (by simp [Table.new]))
  refine ⟨t, hrun, hwf.len_eq, hwf.load, ?_⟩
  by_cases hc : t.entries.length = 0
  · exact Or.inl hc
  · right
    apply exists_empty_of_count_lt
    rw [← hwf.len_eq]
    have := hwf.load
    omega

end RsLox

namespace RsLox

/-! ## RLE correctness (claim C7) -/

/-- The dense sequence a list of runs denotes. -/
def rleDense {T : Type} : List (RleNode T) → List T
  | [] => []
  | n :: rest => List.replicate n.count n.value ++ rleDense rest

/-- Reachable-state invariant of `Rle`: all runs are nonempty and
`last_value` caches the value of the last run. -/
def RleWF {T : Type} (r : Rle T) : Prop :=
  (∀ n ∈ r.data, 0 < n.count) ∧
    r.last_value = r.data.getLast?.map RleNode.value

theorem rleGetAux_shift {T : Type} :
    ∀ (l : List (RleNode T)) (skipped index d : Nat),
      rleGetAux l skipped index = rleGetAux l (skipped + d) (index + d)
  | [], _, _, _ => rfl
  | n :: rest, skipped, index, d => by
    simp only [rleGetAux]
    by_cases h : skipped + n.count > index
    · rw [if_pos h, if_pos (by omega)]
    · rw [if_neg h, if_neg (by omega)]
      have := rleGetAux_shift rest (skipped + n.count) index d
      rw [this]
      congr 1
      omega

theorem get?_replicate {T : Type} :
    ∀ (c i : Nat) (v : T), i < c → (List.replicate c v).get? i = some v
  | 0, i, v, h => by omega
  | c + 1, 0, v, _ => rfl
  | c + 1, i + 1, v, h => get?_replicate c i v (by omega)

theorem rleGetAux_dense {T : Type} :
    ∀ (l : List (RleNode T)) (i : Nat), (∀ n ∈ l, 0 < n.count) →
      rleGetAux l 0 i = (rleDense l).get? i
  | [], i, _ => by simp [rleGetAux, rleDense]
  | n :: rest, i, hpos => by
    simp only [rleGetAux, rleDense, Nat.zero_add]
    by_cases h : n.count > i
    · rw [if_pos h]
      rw [List.get?_append
        (by simpa [List.length_replicate] using h)]
      exact (get?_replicate n.count i n.value h).symm
    · rw [if_neg h]
      have hshift : rleGetAux rest 0 (i - n.count) = rleGetAux rest n.count i := by
        have := rleGetAux_shift rest 0 (i - n.count) n.count
        rw [this]
        congr 1 <;> omega
      rw [← hshift, rleGetAux_dense rest (i - n.count)
        (fun m hm => hpos m (List.mem_cons_of_mem _ hm))]
      rw [List.get?_append_right
        (by simp [List.length_replicate]; omega)]
      congr 1
      simp [List.length_replicate]

theorem rleDense_append {T : Type} :
    ∀ (l₁ l₂ : List (RleNode T)),
      rleDense (l₁ ++ l₂) = rleDense l₁ ++ rleDense l₂
  | [], l₂ => rfl
  | n :: rest, l₂ => by
    show List.replicate n.count n.value ++ rleDense (rest ++ l₂) =
      List.replicate n.count n.value ++ rleDense rest ++ rleDense l₂
    rw [rleDense_append rest l₂, List.append_assoc]

theorem incrLastCount_spec {T : Type} :
    ∀ (l : List (RleNode T)) (h : l ≠ []),
      rleDense (incrLastCount l) = rleDense l ++ [(l.getLast h).value] ∧
      (incrLastCount l).getLast?.map RleNode.value =
        l.getLast?.map RleNode.value ∧
      ((∀ n ∈ l, 0 < n.count) →
        ∀ n ∈ incrLastCount l, 0 < n.count) := by
  intro l
  induction l with
  | nil => intro h; exact absurd rfl h
  | cons x rest ih =>
    intro _
    cases rest with
    | nil =>
      refine ⟨?_, ?_, ?_⟩
      · simp [incrLastCount, rleDense, List.getLast,
          List.replicate_succ']
      · simp [incrLastCount]
      · intro _ n hn
        have hn' : n = ⟨x.value, x.count + 1⟩ := by
          simpa [incrLastCount] using hn
        subst hn'
        simp
    | cons y rest2 =>
      obtain ⟨ih1, ih2, ih3⟩ := ih (by simp)
      refine ⟨?_, ?_, ?_⟩
      · show rleDense (x :: incrLastCount (y :: rest2)) = _
        simp only [rleDense, ih1, List.append_assoc]
        rw [List.getLast_cons (show (y :: rest2) ≠ [] by simp)]
      · show (x :: incrLastCount (y :: rest2)).getLast?.map RleNode.value =
          (x :: y :: rest2).getLast?.map RleNode.value
        cases hinc : incrLastCount (y :: rest2) with
        | nil =>
          exfalso
          cases rest2 <;> simp [incrLastCount] at hinc
        | cons a b =>
          rw [List.getLast?_cons_cons, List.getLast?_cons_cons, ← hinc]
          exact ih2
      · intro hpos n hn
        show 0 < n.count
        rcases List.mem_cons.mp hn with rfl | hn2
        · exact hpos n (List.mem_cons_self _ _)
        · exact ih3 (fun m hm => hpos m (List.mem_cons_of_mem _ hm)) n hn2

theorem rle_push_dense {T : Type} [DecidableEq T] (r : Rle T) (v : T)
    (hwf : RleWF r) :
    rleDense (r.push v).data = rleDense r.data ++ [v] ∧ RleWF (r.push v) := by
  obtain ⟨hpos, hlast⟩ := hwf
  cases hlv : r.last_value with
  | none =>
    have hdata : r.data = [] := by
      rw [hlv] at hlast
      cases hd : r.data with
      | nil => rfl
      | cons a b =>
        rw [hd, List.getLast?_eq_getLast (a :: b) (by simp),
          Option.map_some'] at hlast
        cases hlast
    have hpush : r.push v =
        { data := r.data ++ [⟨v, 1⟩], last_value := some v } := by
      simp [Rle.push, hlv]
    rw [hpush]
    refine ⟨?_, ?_, ?_⟩
    · rw [hdata]
      rfl
    · intro n hn
      rw [hdata] at hn
      simp at hn
      subst hn
      simp
    · rw [hdata]
      rfl
  | some lv =>
    have hne : r.data ≠ [] := by
      intro hd
      rw [hlv, hd] at hlast
      simp at hlast
    by_cases heq : lv = v
    · have hpush : r.push v = { r with data := incrLastCount r.data } := by
        simp [Rle.push, hlv, heq]
      obtain ⟨h1, h2, h3⟩ := incrLastCount_spec r.data hne
      have hlastval : (r.data.getLast hne).value = lv := by
        rw [hlv, List.getLast?_eq_getLast r.data hne, Option.map_some'] at hlast
        exact (Option.some.inj hlast).symm
      rw [hpush]
      refine ⟨?_, ?_, ?_⟩
      · show rleDense (incrLastCount r.data) = _
        rw [h1, hlastval, heq]
      · intro n hn
        exact h3 hpos n hn
      · show r.last_value = _
        show r.last_value =
          ((incrLastCount r.data).getLast?).map RleNode.value
        rw [h2]
        exact hlast
    · have hpush : r.push v =
          { data := r.data ++ [⟨v, 1⟩], last_value := some v } := by
        simp [Rle.push, hlv, heq]
      rw [hpush]
      refine ⟨?_, ?_, ?_⟩
      · show rleDense (r.data ++ [(⟨v, 1⟩ : RleNode T)]) = _
        rw [rleDense_append]
        rfl
      · intro n hn
        rcases List.mem_append.mp hn with h | h
        · exact hpos n h
        · simp at h
          subst h
          simp
      · show some v =
            ((r.data ++ [(⟨v, 1⟩ : RleNode T)]).getLast?).map RleNode.value
        rw [List.getLast?_concat]
        rfl

theorem rle_fold_get {T : Type} [DecidableEq T] :
    ∀ (vs : List T) (r : Rle T), RleWF r → ∀ i,
      (vs.foldl Rle.push r).get i = (rleDense r.data ++ vs).get? i
  | [], r, hwf, i => by
    simp only [List.foldl_nil, List.append_nil]
    exact rleGetAux_dense r.data i hwf.1
  | v :: vs, r, hwf, i => by
    obtain ⟨hdense, hwf'⟩ := rle_push_dense r v hwf
    simp only [List.foldl_cons]
    rw [rle_fold_get vs (r.push v) hwf' i, hdense]
    simp

/-- **C7**: the RLE line index is observationally a dense array — pushing
`v₀ … v_{n-1}` in order and then reading position `i` yields `v_i` for
`i < n` and not-found (`none`) for `i ≥ n`, exactly as `List.get?` on the
pushed sequence. -/
theorem c7_rle_observational_dense {T : Type} [DecidableEq T]
    (vs : List T) (i : Nat) :
    (vs.foldl Rle.push Rle.new).get i = vs.get? i := by
  have hwf : RleWF (Rle.new : Rle T) := by
    unfold RleWF Rle.new
    simp
  rw [rle_fold_get vs Rle.new hwf i]
  simp [Rle.new, rleDense]

end RsLox

namespace RsLox

/-! ## Object heap and string interner (`gc.rs`) -/

/-- The UTF-8 bytes of one char (what `str::as_bytes` yields per char). -/
def utf8Bytes (c : Char) : List Nat :=
  let n := c.toNat
  if n < 128 then [n]
  else if n < 2048 then [192 + n / 64, 128 + n % 64]
  else if n < 65536 then
    [224 + n / 4096, 128 + n / 64 % 64, 128 + n % 64]
  else
    [240 + n / 262144, 128 + n / 4096 % 64, 128 + n / 64 % 64, 128 + n % 64]

/-- FNV-1a 32-bit hash of a string's UTF-8 bytes (`gc.rs::hash_string`,
with `wrapping_mul` as multiplication mod 2³²). -/
def hash_string (s : String) : Nat :=
  (s.toList.bind utf8Bytes).foldl
    (fun h c => ((h ^^^ c) * 16777619) % 4294967296) 2166136261

/-- `gc.rs::ObjString`: string content plus its cached FNV hash.  The
derived Rust `PartialEq` compares both fields; since the hash is computed
from the content at construction, that is content equality. -/
structure ObjString where
  value : String
  hash : Nat
deriving DecidableEq, Repr

/-- `ObjString::new`. -/
def ObjString.new (value : String) : ObjString := ⟨value, hash_string value⟩

/-- `gc.rs::GC`: the object heap plus the interner table.  The Rust heap is
an intrusive linked list of allocations whose addresses never move; here
`objects` is the list of allocated strings in allocation order and a handle
(`ObjRef` / `*mut ObjRefInner` / `*const ObjString`) is the allocation
index, which is equally stable.  The interner maps each string object,
keyed by its own handle, to that same handle. -/
structure GC where
  objects : List ObjString
  strings : Table Nat

/-- `GC::new()`. -/
def GC.new : GC := { objects := [], strings := Table.new }

/-- Dereference a handle (`ObjRef::deref` / `Obj::unwrap_string`); the
default is never reached for handles produced by `alloc_string`. -/
def GC.objAt (g : GC) (h : Nat) : ObjString := g.objects.getD h ⟨"", 0⟩

/-- The hash function under which the interner (and the globals table)
probes: a key handle's cached hash, `ObjString::get_hash`. -/
def gcHash (g : GC) (h : Nat) : Nat := (g.objAt h).hash

/-- `GC::alloc_string`: look the content up in the interner (content
equality via the derived `ObjString` equality); on a hit return the
existing handle, otherwise allocate a new object and register it under
its own handle.  `none` models a non-terminating table probe. -/
def GC.alloc_string (g : GC) (value : String) : Option (GC × Nat) :=
  let obj := ObjString.new value
  Option.bind (g.strings.find obj.hash (fun k => g.objAt k == obj))
    fun found =>
      match found with
      | some interned => some (g, interned)
      | none =>
        let g' : GC := { objects := g.objects ++ [obj], strings := g.strings }
        (Table.set (gcHash g') g'.strings g.objects.length g.objects.length).map
          fun p => ({ objects := g'.objects, strings := p.1 }, g.objects.length)

end RsLox

namespace RsLox

/-! ## The VM dispatch loop (`vm.rs`) -/

/-- `vm.rs::STACK_MAX`. -/
def STACK_MAX : Nat := 256

/-- F32 arithmetic for the `Add`/`Subtract`/`Multiply`/`Divide`/`Negate`
opcodes.  Modelled exactly on rationals with NaN propagation; IEEE
rounding, infinities and division by zero are not modelled — no claim
under verification executes float arithmetic. -/
def f32Add : F32 → F32 → F32
  | .fin a, .fin b => .fin (a + b)
  | _, _ => .nan

def f32Sub : F32 → F32 → F32
  | .fin a, .fin b => .fin (a - b)
  | _, _ => .nan

def f32Mul : F32 → F32 → F32
  | .fin a, .fin b => .fin (a * b)
  | _, _ => .nan

def f32Div : F32 → F32 → F32
  | .fin a, .fin b => if b = 0 then .nan else .fin (a / b)
  | _, _ => .nan

def f32Neg : F32 → F32
  | .fin a => .fin (-a)
  | .nan => .nan

/-- Rust `Display` for `f32`, modelled for the integral values and NaN that
the claims' programs can print (no claim prints a fractional float). -/
def f32Display : F32 → String
  | .nan => "NaN"
  | .fin q => if q.den = 1 then toString q.num else toString q.num ++ "/" ++ toString q.den

/-- `Display` for `Value` (`value.rs`): numbers per f32 `Display`, booleans
as `true`/`false`, nil as `nil`, string objects quoted
(`ObjString`'s `Display` writes surrounding double quotes). -/
def displayValue (g : GC) : Value → String
  | .nil => "nil"
  | .number n => f32Display n
  | .boolean b => if b then "true" else "false"
  | .object h => "\"" ++ (g.objAt h).value ++ "\""

/-- `vm.rs::VM` state during `run` (tracing disabled, as in the tests):
instruction pointer, value stack (top element first, length = `stack_top`,
capacity `STACK_MAX`), globals table, heap, and the bytes written to the
output sink. -/
structure VMState where
  ip : Nat
  stack : List Value
  globals : Table Value
  gc : GC
  output : List String

/-- The result of `VM::run`: `ok` with the returned value, a
`RuntimeError` message, or a Rust panic (`Chunk::get_constant` with an
out-of-range index, or a non-Object constant used as a global name). -/
inductive VMOutcome where
  | ok : Value → VMState → VMOutcome
  | err : String → VMState → VMOutcome
  | panic : VMOutcome

/-- One dispatch iteration either continues or halts. -/
inductive StepRes where
  | cont : VMState → StepRes
  | halt : VMOutcome → StepRes

/-- `VM::stack_push`. -/
def stackPush (st : VMState) (v : Value) : Except String VMState :=
  if st.stack.length = STACK_MAX then .error "Stack overflow"
  else .ok { st with stack := v :: st.stack }

/-- One iteration of `VM::run`'s dispatch loop: read a byte at `ip`,
decode it, execute the opcode.  The outer `Option` is `none` when a
globals-table probe or interner probe would not have terminated. -/
def vmStep (chunk : Chunk) (st0 : VMState) : Option StepRes :=
  match chunk.read_byte st0.ip with
  | none => some (.halt (.err "Read byte out of bounds" st0))
  | some byte =>
    let st := { st0 with ip := st0.ip + 1 }
    match byteToOp byte with
    | none => some (.halt (.err ("Unknown opcode: " ++ toString byte) st))
    | some op =>
      match op with
      | .Return =>
        match st.stack with
        | v :: rest => some (.halt (.ok v { st with stack := rest }))
        | [] => some (.halt (.ok .nil st))
      | .Constant =>
        match chunk.read_byte st.ip with
        | none => some (.halt (.err "Read byte out of bounds" st))
        | some idx =>
          let st := { st with ip := st.ip + 1 }
          match chunk.get_constant idx with
          | none => some (.halt .panic)
          | some c =>
            match stackPush st c with
            | .error m => some (.halt (.err m st))
            | .ok st' => some (.cont st')
      | .ConstantLong =>
        match chunk.read_short st.ip with
        | none => some (.halt (.err "Read short out of bounds" st))
        | some idx =>
          let st := { st with ip := st.ip + 2 }
          match chunk.get_constant idx with
          | none => some (.halt .panic)
          | some c =>
            match stackPush st c with
            | .error m => some (.halt (.err m st))
            | .ok st' => some (.cont st')
      | .Nil =>
        match stackPush st .nil with
        | .error m => some (.halt (.err m st))
        | .ok st' => some (.cont st')
      | .True =>
        match stackPush st (.boolean true) with
        | .error m => some (.halt (.err m st))
        | .ok st' => some (.cont st')
      | .False =>
        match stackPush st (.boolean false) with
        | .error m => some (.halt (.err m st))
        | .ok st' => some (.cont st')
      | .Pop =>
        match st.stack with
        | _ :: rest => some (.cont { st with stack := rest })
        | [] => some (.halt (.err "Stack underflow" st))
      | .Get =>
        match chunk.read_byte st.ip with
        | none => some (.halt (.err "Read byte out of bounds" st))
        | some idx =>
          let st := { st with ip := st.ip + 1 }
          match chunk.get_constant idx with
          | none => some (.halt .panic)
          | some nameVal =>
            match nameVal with
            | .object h =>
              match Table.get (gcHash st.gc) st.globals h with
              | none => none
              | some (some v) =>
                match stackPush st v with
                | .error m => some (.halt (.err m st))
                | .ok st' => some (.cont st')
              | some none =>
                some (.halt (.err ("Undefined variable: \"" ++
                  (st.gc.objAt h).value ++ "\"") st))
            | _ => some (.halt .panic)
      | .GetLong =>
        match chunk.read_short st.ip with
        | none => some (.halt (.err "Read short out of bounds" st))
        | some idx =>
          let st := { st with ip := st.ip + 2 }
          match chunk.get_constant idx with
          | none => some (.halt .panic)
          | some nameVal =>
            match nameVal with
            | .object h =>
              match Table.get (gcHash st.gc) st.globals h with
              | none => none
              | some (some v) =>
                match stackPush st v with
                | .error m => some (.halt (.err m st))
                | .ok st' => some (.cont st')
              | some none =>
                some (.halt (.err ("Undefined variable: \"" ++
                  (st.gc.objAt h).value ++ "\"") st))
            | _ => some (.halt .panic)
      | .DefineGlobal =>
        match chunk.read_byte st.ip with
        | none => some (.halt (.err "Read byte out of bounds" st))
        | some idx =>
          let st := { st with ip := st.ip + 1 }
          match chunk.get_constant idx with
          | none => some (.halt .panic)
          | some nameVal =>
            match nameVal with
            | .object h =>
              match st.stack with
              | [] => some (.halt (.err "Stack underflow" st))
              | v :: rest =>
                match Table.set (gcHash st.gc) st.globals h v with
                | none => none
                | some (g', _) =>
                  some (.cont { st with stack := rest, globals := g' })
            | _ => some (.halt .panic)
      | .DefineGlobalLong =>
        match chunk.read_short st.ip with
        | none => some (.halt (.err "Read short out of bounds" st))
        | some idx =>
          let st := { st with ip := st.ip + 2 }
          match chunk.get_constant idx with
          | none => some (.halt .panic)
          | some nameVal =>
            match nameVal with
            | .object h =>
              match st.stack with
              | [] => some (.halt (.err "Stack underflow" st))
              | v :: rest =>
                match Table.set (gcHash st.gc) st.globals h v with
                | none => none
                | some (g', _) =>
                  some (.cont { st with stack := rest, globals := g' })
            | _ => some (.halt .panic)
      | .Equal =>
        match st.stack with
        | b :: a :: rest =>
          match stackPush { st with stack := rest }
              (.boolean (are_equal a b)) with
          | .error m => some (.halt (.err m { st with stack := rest }))
          | .ok st' => some (.cont st')
        | _ => some (.halt (.err "Stack underflow" st))
      | .Less =>
        match st.stack with
        | b :: a :: rest =>
          match stackPush { st with stack := rest } (.boolean (valueLt a b)) with
          | .error m => some (.halt (.err m { st with stack := rest }))
          | .ok st' => some (.cont st')
        | _ => some (.halt (.err "Stack underflow" st))
      | .Greater =>
        match st.stack with
        | b :: a :: rest =>
          match stackPush { st with stack := rest } (.boolean (valueGt a b)) with
          | .error m => some (.halt (.err m { st with stack := rest }))
          | .ok st' => some (.cont st')
        | _ => some (.halt (.err "Stack underflow" st))
      | .Add =>
        match st.stack with
        | b :: a :: rest =>
          match a, b with
          | .number an, .number bn =>
            match stackPush { st with stack := rest }
                (.number (f32Add an bn)) with
            | .error m => some (.halt (.err m { st with stack := rest }))
            | .ok st' => some (.cont st')
          | .object ah, .object bh =>
            match GC.alloc_string st.gc
                ((st.gc.objAt ah).value ++ (st.gc.objAt bh).value) with
            | none => none
            | some (gc', h') =>
              match stackPush { st with stack := rest, gc := gc' }
                  (.object h') with
              | .error m =>
                some (.halt (.err m { st with stack := rest, gc := gc' }))
              | .ok st' => some (.cont st')
          | _, _ =>
            some (.halt (.err ("Invalid type for addition: " ++
              displayValue st.gc a ++ " " ++ displayValue st.gc b)
              { st with stack := rest }))
        | _ => some (.halt (.err "Stack underflow" st))
      | .Subtract =>
        match st.stack with
        | b :: a :: rest =>
          match a, b with
          | .number an, .number bn =>
            match stackPush { st with stack := rest }
                (.number (f32Sub an bn)) with
            | .error m => some (.halt (.err m { st with stack := rest }))
            | .ok st' => some (.cont st')
          | _, _ =>
            some (.halt (.err ("Invalid type for subtraction: " ++
              displayValue st.gc a ++ " " ++ displayValue st.gc b)
              { st with stack := rest }))
        | _ => some (.halt (.err "Stack underflow" st))
      | .Multiply =>
        match st.stack with
        | b :: a :: rest =>
          match a, b with
          | .number an, .number bn =>
            match stackPush { st with stack := rest }
                (.number (f32Mul an bn)) with
            | .error m => some (.halt (.err m { st with stack := rest }))
            | .ok st' => some (.cont st')
          | _, _ =>
            some (.halt (.err ("Invalid type for multiplication: " ++
              displayValue st.gc a ++ " " ++ displayValue st.gc b)
              { st with stack := rest }))
        | _ => some (.halt (.err "Stack underflow" st))
      | .Divide =>
        match st.stack with
        | b :: a :: rest =>
          match a, b with
          | .number an, .number bn =>
            match stackPush { st with stack := rest }
                (.number (f32Div an bn)) with
            | .error m => some (.halt (.err m { st with stack := rest }))
            | .ok st' => some (.cont st')
          | _, _ =>
            some (.halt (.err ("Invalid type for division: " ++
              displayValue st.gc a ++ " " ++ displayValue st.gc b)
              { st with stack := rest }))
        | _ => some (.halt (.err "Stack underflow" st))
      | .Negate =>
        match st.stack with
        | v :: rest =>
          match v with
          | .number n =>
            match stackPush { st with stack := rest } (.number (f32Neg n)) with
            | .error m => some (.halt (.err m { st with stack := rest }))
            | .ok st' => some (.cont st')
          | _ =>
            some (.halt (.err ("Invalid type for negation: " ++
              displayValue st.gc v) { st with stack := rest }))
        | [] => some (.halt (.err "Stack underflow" st))
      | .Not =>
        match st.stack with
        | v :: rest =>
          match stackPush { st with stack := rest } (.boolean (is_falsey v)) with
          | .error m => some (.halt (.err m { st with stack := rest }))
          | .ok st' => some (.cont st')
        | [] => some (.halt (.err "Stack underflow" st))
      | .Print =>
        match st.stack with
        | v :: rest =>
          some (.cont { st with
                        stack := rest,
                        output := st.output ++ [displayValue st.gc v ++ "\n"] })
        | [] => some (.halt (.err "Stack underflow" st))

/-- `VM::run`: iterate `vmStep` (fuel models the unbounded loop). -/
def vmRun (chunk : Chunk) : Nat → VMState → Option VMOutcome
  | 0, _ => none
  | fuel + 1, st =>
    match vmStep chunk st with
    | none => none
    | some (.halt out) => some out
    | some (.cont st') => vmRun chunk fuel st'

/-- `VM::new` followed by `run` from offset 0 (tracing off, empty sink). -/
def initVM (gc : GC) : VMState :=
  { ip := 0, stack := [], globals := Table.new, gc := gc, output := [] }

end RsLox

namespace RsLox

/-- **C2** (counterexample): `are_equal` on two Object values with the
*identical* handle returns `false`, contradicting the claim that Object
values are equal exactly when their handles are identical (the `match`
in `value.rs::are_equal` has no Object arm, so object pairs fall into
the catch-all `_ => false`). -/
theorem c2_object_identity_counterexample :
    are_equal (Value.object 0) (Value.object 0) = false := rfl

/-- **C2** (amended): value equality as used by the `Equal` opcode is
decided case-by-case — Nil equals Nil; a Boolean equals only the matching
Boolean; Numbers compare by numeric equality with NaN unequal to NaN; and
*every* pair of Object values is unequal, identical handles included;
all mixed-kind pairs are unequal. -/
theorem c2_are_equal_case_analysis :
    are_equal .nil .nil = true ∧
    (∀ x y : Bool, are_equal (.boolean x) (.boolean y) = (x == y)) ∧
    (∀ x y : F32, are_equal (.number x) (.number y) = f32Eq x y) ∧
    f32Eq .nan .nan = false ∧
    (∀ h₁ h₂ : Nat, are_equal (.object h₁) (.object h₂) = false) ∧
    (∀ x : F32, are_equal .nil (.number x) = false ∧
      are_equal (.number x) .nil = false) ∧
    (∀ x : Bool, are_equal .nil (.boolean x) = false ∧
      are_equal (.boolean x) .nil = false) ∧
    (∀ h : Nat, are_equal .nil (.object h) = false ∧
      are_equal (.object h) .nil = false) ∧
    (∀ (x : F32) (y : Bool), are_equal (.number x) (.boolean y) = false ∧
      are_equal (.boolean y) (.number x) = false) ∧
    (∀ (x : F32) (h : Nat), are_equal (.number x) (.object h) = false ∧
      are_equal (.object h) (.number x) = false) ∧
    (∀ (y : Bool) (h : Nat), are_equal (.boolean y) (.object h) = false ∧
      are_equal (.object h) (.boolean y) = false) :=
  ⟨rfl, fun _ _ => rfl, fun _ _ => rfl, rfl, fun _ _ => rfl,
    fun _ => ⟨rfl, rfl⟩, fun _ => ⟨rfl, rfl⟩, fun _ => ⟨rfl, rfl⟩,
    fun _ _ => ⟨rfl, rfl⟩, fun _ _ => ⟨rfl, rfl⟩, fun _ _ => ⟨rfl, rfl⟩⟩

/-- **C3** (counterexample): executing `Less` with operands `a = Nil`,
`b = Boolean(true)` (neither a Number) does *not* halt with a runtime
error: `vm.rs` evaluates `a < b` through `Value`'s derived `PartialOrd`,
which orders distinct variants by declaration order, and pushes
`Boolean(true)`. -/
theorem c3_mixed_less_no_error_counterexample :
    vmStep ⟨[13], [], Rle.new⟩
      ⟨0, [Value.boolean true, Value.nil], Table.new, GC.new, []⟩ =
      some (.cont ⟨1, [Value.boolean true], Table.new, GC.new, []⟩) := rfl

/-- **C3** (amended): the `Less` (byte 13) and `Greater` (byte 12) opcodes
never raise a type error: they pop `b` then `a` and always push
`Boolean(a < b)` / `Boolean(a > b)` computed by the derived `PartialOrd`
on `Value` (numeric comparison when both are Numbers, variant order
`Nil < Number < Boolean < Object` for mixed kinds), for *every* operand
pair — not only Numbers. -/
theorem c3_less_greater_push_always (c : Chunk) (st : VMState)
    (a b : Value) (rest : List Value)
    (hstack : st.stack = b :: a :: rest)
    (hlen : st.stack.length ≤ STACK_MAX) :
    (c.code.get? st.ip = some 13 →
      vmStep c st = some (.cont { st with
                                  ip := st.ip + 1,
                                  stack := Value.boolean (valueLt a b) :: rest })) ∧
    (c.code.get? st.ip = some 12 →
      vmStep c st = some (.cont { st with
                                  ip := st.ip + 1,
                                  stack := Value.boolean (valueGt a b) :: rest })) := by
  have hrest : ¬(rest.length = STACK_MAX) := by
    rw [hstack] at hlen
    simp [STACK_MAX] at hlen ⊢
    omega
  have h13 : byteToOp 13 = some OpCode.Less := rfl
  have h12 : byteToOp 12 = some OpCode.Greater := rfl
  constructor <;> intro hcode <;>
    simp only [vmStep, Chunk.read_byte, hcode, h13, h12, hstack, stackPush,
      if_neg hrest]

/-- Witness for the amended C3 theorem at a concrete mixed-kind pair. -/
theorem c3_less_greater_push_always_witness :
    vmStep ⟨[13], [], Rle.new⟩
      ⟨0, [Value.boolean true, Value.nil], Table.new, GC.new, []⟩ =
      some (.cont ⟨1, [Value.boolean (valueLt Value.nil (Value.boolean true))],
        Table.new, GC.new, []⟩) :=
  (c3_less_greater_push_always ⟨[13], [], Rle.new⟩
    ⟨0, [Value.boolean true, Value.nil], Table.new, GC.new, []⟩
    Value.nil (Value.boolean true) [] rfl (by decide)).1 rfl

/-- **C8**: `Chunk::ref_const` emits the short opcode plus one index byte
for every index ≤ 255 and the long opcode plus a 2-byte big-endian index
for 256 ≤ index ≤ 65535; the boundary sits exactly between 255 and 256. -/
theorem c8_ref_const_width_boundary (c : Chunk) (i : Nat)
    (bop lop : OpCode) (line : LineNumber) :
    (i ≤ 255 → (c.ref_const i bop lop line).map Chunk.code =
      some (c.code ++ [bop.toByte, i])) ∧
    (256 ≤ i → i ≤ 65535 → (c.ref_const i bop lop line).map Chunk.code =
      some (c.code ++ [lop.toByte, i / 256, i % 256])) := by
  constructor
  · intro h
    rw [Chunk.ref_const, if_pos (by omega)]
    simp [Chunk.write_opcode, Chunk.write_byte]
  · intro h1 h2
    rw [Chunk.ref_const, if_neg (by omega), if_pos (by omega)]
    simp [Chunk.write_opcode, Chunk.write_byte, Chunk.write_short]

/-- Witness for C8 at the boundary indices 255 and 256. -/
theorem c8_ref_const_width_boundary_witness :
    (Chunk.ref_const Chunk.new 255 .Constant .ConstantLong 1).map Chunk.code =
      some ([] ++ [OpCode.toByte .Constant, 255]) ∧
    (Chunk.ref_const Chunk.new 256 .Constant .ConstantLong 1).map Chunk.code =
      some ([] ++ [OpCode.toByte .ConstantLong, 256 / 256, 256 % 256]) :=
  ⟨(c8_ref_const_width_boundary Chunk.new 255 .Constant .ConstantLong 1).1
      (by decide),
   (c8_ref_const_width_boundary Chunk.new 256 .Constant .ConstantLong 1).2
      (by decide) (by decide)⟩

/-- **C10**: `Chunk::get_constant` panics (never a `RuntimeError`) on every
out-of-range index, for any chunk however constructed; consequently the
VM halts with a panic — not a `RuntimeError` value — when a `Constant`,
`Get` or `DefineGlobal` (byte 1/7/9) instruction carries an operand index
at or beyond the constant-pool length, and likewise for the long forms
`ConstantLong`, `GetLong`, `DefineGlobalLong` (byte 2/8/10) with their
2-byte big-endian operand. -/
theorem c10_get_constant_panics :
    (∀ (c : Chunk) (offset : Nat), c.constants.length ≤ offset →
      c.get_constant offset = none) ∧
    (∀ (c : Chunk) (st : VMState) (b idx : Nat),
      c.code.get? st.ip = some b → (b = 1 ∨ b = 7 ∨ b = 9) →
      c.code.get? (st.ip + 1) = some idx →
      c.constants.length ≤ idx →
      vmStep c st = some (.halt .panic)) ∧
    (∀ (c : Chunk) (st : VMState) (b hi lo : Nat),
      c.code.get? st.ip = some b → (b = 2 ∨ b = 8 ∨ b = 10) →
      c.code.get? (st.ip + 1) = some hi →
      c.code.get? (st.ip + 2) = some lo →
      c.constants.length ≤ hi * 256 + lo →
      vmStep c st = some (.halt .panic)) := by
  have hget : ∀ (c : Chunk) (offset : Nat), c.constants.length ≤ offset →
      c.get_constant offset = none := by
    intro c offset h
    rw [Chunk.get_constant]
    exact List.get?_eq_none.mpr h
  refine ⟨hget, ?_, ?_⟩
  · intro c st b idx hb hcases hidx hlen
    have hg := hget c idx hlen
    rcases hcases with rfl | rfl | rfl <;>
      simp only [vmStep, Chunk.read_byte, hb, byteToOp, hidx, hg]
  · intro c st b hi lo hb hcases hhi hlo hlen
    have hg := hget c (hi * 256 + lo) hlen
    have hshort : c.read_short (st.ip + 1) = some (hi * 256 + lo) := by
      rw [Chunk.read_short]
      rw [show st.ip + 1 + 1 = st.ip + 2 by omega]
      rw [hhi, hlo]
      rfl
    rcases hcases with rfl | rfl | rfl <;>
      simp only [vmStep, Chunk.read_byte, hb, byteToOp, hshort, hg]

/-- Witness for C10: a `Constant` instruction with operand 5 over an empty
constant pool panics. -/
theorem c10_get_constant_panics_witness :
    Chunk.get_constant ⟨[1, 5], [], Rle.new⟩ 5 = none ∧
    vmStep ⟨[1, 5], [], Rle.new⟩ (initVM GC.new) = some (.halt .panic) :=
  ⟨c10_get_constant_panics.1 ⟨[1, 5], [], Rle.new⟩ 5 (by decide),
   c10_get_constant_panics.2.1 ⟨[1, 5], [], Rle.new⟩ (initVM GC.new) 1 5
     rfl (Or.inl rfl) rfl (by decide)⟩

end RsLox

namespace RsLox

/-! ## Content-based lookup (`Table::find`) and interner groundwork -/

theorem getD_append_left {α : Type _} :
    ∀ (l₁ l₂ : List α) (i : Nat) (d : α), i < l₁.length →
      (l₁ ++ l₂).getD i d = l₁.getD i d
  | [], _, i, d, h => by simp at h
  | x :: xs, l₂, 0, d, _ => rfl
  | x :: xs, l₂, i + 1, d, h =>
    getD_append_left xs l₂ i d (by simpa using h)

theorem getD_append_at {α : Type _} :
    ∀ (l : List α) (a d : α), (l ++ [a]).getD l.length d = a
  | [], a, d => rfl
  | x :: xs, a, d => getD_append_at xs a d

theorem nodup_map_of_getD_inj {α β : Type _} (f : α → β) (d : α) :
    ∀ l : List α,
      (∀ i j, i < l.length → j < l.length →
        f (l.getD i d) = f (l.getD j d) → i = j) →
      (l.map f).Nodup := by
  intro l
  induction l with
  | nil => intro _; simp
  | cons x rest ih =>
    intro hinj
    simp only [List.map_cons, List.nodup_cons]
    constructor
    · intro hmem
      obtain ⟨a, ha, hfa⟩ := List.mem_map.mp hmem
      obtain ⟨i, hget⟩ := List.mem_iff_get.mp ha
      have hgd : rest.getD i.val d = a := by
        rw [getD_eq_get_of_lt rest i.val d i.isLt, hget]
      have : (i.val : Nat) + 1 = 0 := by
        apply hinj (i.val + 1) 0 (by simpa using i.isLt) (by simp)
        show f ((x :: rest).getD (i.val + 1) d) = f ((x :: rest).getD 0 d)
        show f (rest.getD i.val d) = f x
        rw [hgd, hfa]
      omega
    · apply ih
      intro i j hi hj hf
      have := hinj (i + 1) (j + 1) (by simpa using hi) (by simpa using hj) hf
      omega

/-- The table invariant only inspects the hash of stored keys. -/
theorem tableWF_hashCongr {T : Type} (hash hash' : Nat → Nat) (t : Table T)
    (hcong : ∀ k v, hasBinding t.entries k v → hash' k = hash k)
    (hwf : TableWF hash t) : TableWF hash' t := by
  refine ⟨hwf.len_eq, hwf.load, hwf.uniq, ?_⟩
  intro j k v hj hd u hu
  rw [hcong k v ⟨j, hj, hd⟩] at hu ⊢
  exact hwf.chain j k v hj hd u hu

theorem findLoop_found {T : Type} (e : List (Entry T))
    (matchesKey : Nat → Bool) (k₀ : Nat) (v₀ : T) :
    ∀ (d fuel i : Nat), i < e.length → d < fuel →
      e.getD ((i + d) % e.length) .empty = .data k₀ v₀ →
      matchesKey k₀ = true →
      (∀ u, u < d → ∀ k' v',
        e.getD ((i + u) % e.length) .empty = .data k' v' →
        matchesKey k' = false) →
      (∀ u, u < d → e.getD ((i + u) % e.length) .empty ≠ .empty) →
      findLoop e matchesKey fuel i = some (some v₀) := by
  intro d
  induction d with
  | zero =>
    intro fuel i hi hfuel hdata hmatch _ _
    obtain ⟨f, rfl⟩ : ∃ f, fuel = f + 1 := ⟨fuel - 1, by omega⟩
    have hmod : (i + 0) % e.length = i := by
      simpa using Nat.mod_eq_of_lt hi
    rw [hmod] at hdata
    simp only [findLoop]
    rw [hdata]
    simp [hmatch]
  | succ d ih =>
    intro fuel i hi hfuel hdata hmatch hnomatch hne
    obtain ⟨f, rfl⟩ : ∃ f, fuel = f + 1 := ⟨fuel - 1, by omega⟩
    have hcap : 0 < e.length := by omega
    have hmod0 : (i + 0) % e.length = i := by simpa using Nat.mod_eq_of_lt hi
    have hstep : ∀ u, ((i + 1) % e.length + u) % e.length =
        (i + (u + 1)) % e.length := by
      intro u
      rw [Nat.mod_add_mod]
      congr 1
      omega
    have hi' : (i + 1) % e.length < e.length := Nat.mod_lt _ hcap
    have hdata' : e.getD (((i + 1) % e.length + d) % e.length) .empty
        = .data k₀ v₀ := by rw [hstep d]; exact hdata
    have hnomatch' : ∀ u, u < d → ∀ k' v',
        e.getD (((i + 1) % e.length + u) % e.length) .empty = .data k' v' →
        matchesKey k' = false := by
      intro u hu k' v' hd
      rw [hstep u] at hd
      exact hnomatch (u + 1) (by omega) k' v' hd
    have hne' : ∀ u, u < d →
        e.getD (((i + 1) % e.length + u) % e.length) .empty ≠ .empty := by
      intro u hu
      rw [hstep u]
      exact hne (u + 1) (by omega)
    have hrec := ih f ((i + 1) % e.length) hi' (by omega) hdata' hmatch
      hnomatch' hne'
    have hne0 : e.getD i .empty ≠ .empty := by
      have h := hne 0 (by omega)
      rwa [hmod0] at h
    cases hEi : e.getD i .empty with
    | empty => exact absurd hEi hne0
    | tombstone k =>
      simp only [findLoop, hEi]
      exact hrec
    | data k v' =>
      have hk : matchesKey k = false := by
        have h := hnomatch 0 (by omega) k v'
        rw [hmod0] at h
        exact h hEi
      simp only [findLoop, hEi, hk]
      exact hrec

theorem findLoop_absent {T : Type} (e : List (Entry T))
    (matchesKey : Nat → Bool) (s m : Nat)
    (hs : s < e.length)
    (hmE : e.getD ((s + m) % e.length) .empty = .empty)
    (hglobal : ∀ j, j < e.length → ∀ k v,
      e.getD j .empty = .data k v → matchesKey k = false) :
    ∀ (fuel t0 : Nat), t0 ≤ m → m < t0 + fuel →
      findLoop e matchesKey fuel ((s + t0) % e.length) = some none := by
  intro fuel
  induction fuel with
  | zero =>
    intro t0 h1 h2
    omega
  | succ f ih =>
    intro t0 ht0 hfuel
    have hcap : 0 < e.length := by omega
    have hi : (s + t0) % e.length < e.length := Nat.mod_lt _ hcap
    have hwalk : ((s + t0) % e.length + 1) % e.length =
        (s + (t0 + 1)) % e.length := walk_succ s t0 e.length hcap
    cases hEi : e.getD ((s + t0) % e.length) .empty with
    | empty =>
      simp only [findLoop, hEi]
    | tombstone k =>
      have ht0m : t0 ≠ m := by
        intro h
        rw [h, hmE] at hEi
        cases hEi
      simp only [findLoop, hEi]
      rw [hwalk]
      exact ih (t0 + 1) (by omega) (by omega)
    | data k v =>
      have ht0m : t0 ≠ m := by
        intro h
        rw [h, hmE] at hEi
        cases hEi
      have hk : matchesKey k = false := hglobal _ hi k v hEi
      simp only [findLoop, hEi, hk]
      rw [hwalk]
      exact ih (t0 + 1) (by omega) (by omega)

/-- `Table::find` locates the unique matching binding when one exists and
its key's home bucket agrees with the query hash. -/
theorem table_find_spec_found {T : Type} (hash : Nat → Nat) (t : Table T)
    (matchesKey : Nat → Bool) (queryHash j₀ k₀ : Nat) (v₀ : T)
    (hwf : TableWF hash t)
    (hj₀ : j₀ < t.entries.length)
    (hd : t.entries.getD j₀ .empty = .data k₀ v₀)
    (hmatch : matchesKey k₀ = true)
    (hanchor : queryHash % t.entries.length = hash k₀ % t.entries.length)
    (huniqMatch : ∀ k' v', hasBinding t.entries k' v' →
      matchesKey k' = true → k' = k₀) :
    t.find queryHash matchesKey = some (some v₀) := by
  have hlen : t.len ≠ 0 := by
    have hc := count_pos_of_data t.entries j₀ k₀ v₀ hj₀ hd
    rw [← hwf.len_eq] at hc
    omega
  have hcap : 0 < t.entries.length := by
    have := hwf.load
    omega
  rw [Table.find, if_neg hlen, hanchor]
  set s := hash k₀ % t.entries.length with hsdef
  have hs : s < t.entries.length := Nat.mod_lt _ hcap
  have hdlt : cycDist s j₀ t.entries.length < t.entries.length :=
    cycDist_lt _ _ _ hcap
  have hwalk : (s + cycDist s j₀ t.entries.length) % t.entries.length = j₀ :=
    walk_cycDist s j₀ t.entries.length hs hj₀
  apply findLoop_found t.entries matchesKey k₀ v₀
    (cycDist s j₀ t.entries.length) t.entries.length s hs hdlt
    (by rw [hwalk]; exact hd) hmatch
  · intro u hu k' v' hd'
    by_contra hmk
    have hmk' : matchesKey k' = true := by
      cases h : matchesKey k'
      · exact absurd h hmk
      · rfl
    have hkk := huniqMatch k' v'
      ⟨(s + u) % t.entries.length, Nat.mod_lt _ hcap, hd'⟩ hmk'
    subst hkk
    have heqj := hwf.uniq ((s + u) % t.entries.length) j₀ k' k' v' v₀
      (Nat.mod_lt _ hcap) hj₀ hd' hd rfl
    have h3 : cycDist s ((s + u) % t.entries.length) t.entries.length = u :=
      cycDist_walk s u t.entries.length hs (by omega)
    rw [heqj] at h3
    omega
  · intro u hu
    exact hwf.chain j₀ k₀ v₀ hj₀ hd u hu

/-- `Table::find` reports absence when no stored binding matches. -/
theorem table_find_spec_absent {T : Type} (hash : Nat → Nat) (t : Table T)
    (matchesKey : Nat → Bool) (queryHash : Nat)
    (hwf : TableWF hash t)
    (hno : ∀ k v, hasBinding t.entries k v → matchesKey k = false) :
    t.find queryHash matchesKey = some none := by
  by_cases hlen : t.len = 0
  · rw [Table.find, if_pos hlen]
  · have hcap : 0 < t.entries.length := by
      have := hwf.load
      omega
    have hs : queryHash % t.entries.length < t.entries.length :=
      Nat.mod_lt _ hcap
    obtain ⟨jE, hjE, hE⟩ : ∃ jE, jE < t.entries.length ∧
        t.entries.getD jE .empty = .empty := by
      apply exists_empty_of_count_lt
      rw [← hwf.len_eq]
      have := hwf.load
      omega
    have hglobal : ∀ j, j < t.entries.length → ∀ k v,
        t.entries.getD j .empty = .data k v → matchesKey k = false := by
      intro j hj k v hd
      exact hno k v ⟨j, hj, hd⟩
    set s := queryHash % t.entries.length with hsdef
    have hmE : t.entries.getD
        ((s + cycDist s jE t.entries.length) % t.entries.length) .empty =
        .empty := by
      rw [walk_cycDist s jE t.entries.length hs hjE]
      exact hE
    have hrun := findLoop_absent t.entries matchesKey s
      (cycDist s jE t.entries.length) hs hmE hglobal t.entries.length 0
      (by omega) (by have := cycDist_lt s jE t.entries.length hcap; omega)
    rw [show (s + 0) % t.entries.length = s by
      simpa using Nat.mod_eq_of_lt hs] at hrun
    rw [Table.find, if_neg hlen]
    exact hrun

end RsLox

namespace RsLox

/-! ## Interner invariant and `GC::alloc_string` correctness -/

/-- Invariant of the `GC` state maintained by `alloc_string`: the interner
table is well formed under the handle hash, every stored binding maps a
live handle to itself, cached hashes are honest, every live handle is
registered, and live contents are pairwise distinct. -/
structure GCWF (g : GC) : Prop where
  twf : TableWF (gcHash g) g.strings
  keys_id : ∀ k v, hasBinding g.strings.entries k v →
    v = k ∧ k < g.objects.length
  hash_ok : ∀ h, h < g.objects.length →
    (g.objAt h).hash = hash_string (g.objAt h).value
  complete : ∀ h, h < g.objects.length → hasBinding g.strings.entries h h
  distinct : ∀ h₁ h₂, h₁ < g.objects.length → h₂ < g.objects.length →
    (g.objAt h₁).value = (g.objAt h₂).value → h₁ = h₂

theorem gcWF_new : GCWF GC.new := by
  refine ⟨tableWF_new _, ?_, ?_, ?_, ?_⟩
  · intro k v hb
    unfold hasBinding at hb
    obtain ⟨j, hj, _⟩ := hb
    simp [GC.new, Table.new] at hj
  · intro h hh
    simp [GC.new] at hh
  · intro h hh
    simp [GC.new] at hh
  · intro h₁ h₂ hh₁ _ _
    simp [GC.new] at hh₁

/-- `GC::alloc_string` terminates, preserves the invariant, returns a live
handle whose object carries the requested content, leaves existing objects
untouched, and extends the set of live contents by exactly the requested
string. -/
theorem alloc_string_spec (g : GC) (s : String) (hwf : GCWF g) :
    ∃ g' h, g.alloc_string s = some (g', h) ∧ GCWF g' ∧
      h < g'.objects.length ∧ (g'.objAt h).value = s ∧
      g.objects.length ≤ g'.objects.length ∧
      (∀ h₀, h₀ < g.objects.length → g'.objAt h₀ = g.objAt h₀) ∧
      (∀ x, (∃ h₀, h₀ < g'.objects.length ∧ (g'.objAt h₀).value = x) ↔
        ((∃ h₀, h₀ < g.objects.length ∧ (g.objAt h₀).value = x) ∨ x = s)) := by
  by_cases hex : ∃ h₀, h₀ < g.objects.length ∧ (g.objAt h₀).value = s
  · -- the content is already interned: `find` hits and nothing changes
    obtain ⟨h₀, hh₀, hval⟩ := hex
    have hobj : g.objAt h₀ = ObjString.new s := by
      have hhash := hwf.hash_ok h₀ hh₀
      rw [hval] at hhash
      unfold ObjString.new
      cases hG : g.objAt h₀ with
      | mk v hsh =>
        rw [hG] at hval hhash
        have hv : v = s := hval
        have hh : hsh = hash_string s := hhash
        rw [hv, hh]
    have hbind := hwf.complete h₀ hh₀
    unfold hasBinding at hbind
    obtain ⟨j₀, hj₀, hd₀⟩ := hbind
    have hfind : g.strings.find (ObjString.new s).hash
        (fun k => g.objAt k == ObjString.new s) = some (some h₀) := by
      apply table_find_spec_found (gcHash g) g.strings _ _ j₀ h₀ h₀ hwf.twf
        hj₀ hd₀
      · rw [hobj]
        simp
      · unfold gcHash
        rw [hobj]
      · intro k' v' hb' hm'
        have hk' := (hwf.keys_id k' v' hb').2
        have heq : g.objAt k' = ObjString.new s := by
          simpa using hm'
        apply hwf.distinct k' h₀ hk' hh₀
        rw [heq, hobj]
    refine ⟨g, h₀, ?_, hwf, hh₀, hval, le_refl _, fun _ _ => rfl, ?_⟩
    · simp only [GC.alloc_string]
      rw [hfind, Option.some_bind]
    · intro x
      constructor
      · intro h
        exact Or.inl h
      · rintro (h | rfl)
        · exact h
        · exact ⟨h₀, hh₀, hval⟩
  · -- fresh content: `find` misses, a new object is appended and registered
    push_neg at hex
    have hno : ∀ k v, hasBinding g.strings.entries k v →
        (fun k => g.objAt k == ObjString.new s) k = false := by
      intro k v hb
      have hk := (hwf.keys_id k v hb).2
      simp only [beq_eq_false_iff_ne, ne_eq]
      intro heq
      apply hex k hk
      rw [heq]
      rfl
    have hfind : g.strings.find (ObjString.new s).hash
        (fun k => g.objAt k == ObjString.new s) = some none :=
      table_find_spec_absent (gcHash g) g.strings _ _ hwf.twf hno
    have hcong : ∀ k v, hasBinding g.strings.entries k v →
        gcHash { objects := g.objects ++ [ObjString.new s],
                 strings := g.strings } k = gcHash g k := by
      intro k v hb
      have hk := (hwf.keys_id k v hb).2
      unfold gcHash GC.objAt
      simp only
      rw [getD_append_left g.objects [ObjString.new s] k _ hk]
    have htwf' : TableWF (gcHash { objects := g.objects ++ [ObjString.new s],
                                   strings := g.strings }) g.strings :=
      tableWF_hashCongr (gcHash g) _ g.strings hcong hwf.twf
    obtain ⟨t', flag, hset, hwf', hkey, hpres, hrev⟩ :=
      table_set_spec (gcHash { objects := g.objects ++ [ObjString.new s],
                               strings := g.strings })
        g.strings g.objects.length g.objects.length htwf'
    have hlen'' : ({ objects := g.objects ++ [ObjString.new s],
                     strings := t' } : GC).objects.length =
        g.objects.length + 1 := by
      simp
    have hat_old : ∀ h₀, h₀ < g.objects.length →
        ({ objects := g.objects ++ [ObjString.new s],
            strings := t' } : GC).objAt h₀ = g.objAt h₀ := by
      intro h₀ hh₀
      unfold GC.objAt
      simp only
      rw [getD_append_left g.objects [ObjString.new s] h₀ _ hh₀]
    have hat_new : ({ objects := g.objects ++ [ObjString.new s],
                      strings := t' } : GC).objAt g.objects.length =
        ObjString.new s := by
      unfold GC.objAt
      simp only
      rw [getD_append_at]
    refine ⟨{ objects := g.objects ++ [ObjString.new s], strings := t' },
      g.objects.length, ?_, ⟨?_, ?_, ?_, ?_, ?_⟩, ?_, ?_, ?_, hat_old, ?_⟩
    · simp only [GC.alloc_string]
      rw [hfind, Option.some_bind]
      simp only
      rw [hset, Option.map_some']
    · exact hwf'
    · intro k v hb
      rcases hrev k v hb with hold | ⟨rfl, rfl⟩
      · have := hwf.keys_id k v hold
        rw [hlen'']
        omega
      · rw [hlen'']
        omega
    · intro h₀ hh₀
      rw [hlen''] at hh₀
      by_cases hlt : h₀ < g.objects.length
      · rw [hat_old h₀ hlt]
        exact hwf.hash_ok h₀ hlt
      · have : h₀ = g.objects.length := by omega
        subst this
        rw [hat_new]
        rfl
    · intro h₀ hh₀
      rw [hlen''] at hh₀
      by_cases hlt : h₀ < g.objects.length
      · have hold := hwf.complete h₀ hlt
        unfold hasBinding at hold ⊢
        obtain ⟨j, hj, hd⟩ := hold
        have hmaps : tblMaps t'.entries h₀ (some h₀) :=
          hpres h₀ (by omega) (some h₀) ⟨j, hj, hd⟩
        exact hmaps
      · have : h₀ = g.objects.length := by omega
        subst this
        exact hkey
    · intro h₁ h₂ hh₁ hh₂ hveq
      rw [hlen''] at hh₁ hh₂
      by_cases hlt₁ : h₁ < g.objects.length
      · by_cases hlt₂ : h₂ < g.objects.length
        · rw [hat_old h₁ hlt₁, hat_old h₂ hlt₂] at hveq
          exact hwf.distinct h₁ h₂ hlt₁ hlt₂ hveq
        · have : h₂ = g.objects.length := by omega
          subst this
          rw [hat_old h₁ hlt₁, hat_new] at hveq
          exact absurd hveq (hex h₁ hlt₁)
      · have he₁ : h₁ = g.objects.length := by omega
        subst he₁
        by_cases hlt₂ : h₂ < g.objects.length
        · rw [hat_old h₂ hlt₂, hat_new] at hveq
          exact absurd hveq.symm (hex h₂ hlt₂)
        · omega
    · rw [hlen'']
      omega
    · rw [hat_new]
      rfl
    · rw [hlen'']
      omega
    · intro x
      constructor
      · rintro ⟨h₀, hh₀, hv⟩
        rw [hlen''] at hh₀
        by_cases hlt : h₀ < g.objects.length
        · rw [hat_old h₀ hlt] at hv
          exact Or.inl ⟨h₀, hlt, hv⟩
        · have : h₀ = g.objects.length := by omega
          subst this
          rw [hat_new] at hv
          exact Or.inr hv.symm
      · rintro (⟨h₀, hh₀, hv⟩ | rfl)
        · refine ⟨h₀, by rw [hlen'']; omega, ?_⟩
          rw [hat_old h₀ hh₀]
          exact hv
        · refine ⟨g.objects.length, by rw [hlen'']; omega, ?_⟩
          rw [hat_new]
          rfl

end RsLox

namespace RsLox

/-- Intern a list of source strings in order through `GC::alloc_string`,
collecting the returned handles (`none` models a non-terminating probe). -/
def internAll (g : GC) : List String → Option (GC × List Nat)
  | [] => some (g, [])
  | s :: rest =>
    Option.bind (g.alloc_string s) fun p =>
      Option.bind (internAll p.1 rest) fun q =>
        some (q.1, p.2 :: q.2)

theorem internAll_spec : ∀ (ss : List String) (g : GC), GCWF g →
    ∃ g' hs, internAll g ss = some (g', hs) ∧ GCWF g' ∧
      hs.length = ss.length ∧
      g.objects.length ≤ g'.objects.length ∧
      (∀ h₀, h₀ < g.objects.length → g'.objAt h₀ = g.objAt h₀) ∧
      (∀ x, (∃ h₀, h₀ < g'.objects.length ∧ (g'.objAt h₀).value = x) ↔
        ((∃ h₀, h₀ < g.objects.length ∧ (g.objAt h₀).value = x) ∨ x ∈ ss)) ∧
      (∀ i, i < ss.length → hs.getD i 0 < g'.objects.length ∧
        (g'.objAt (hs.getD i 0)).value = ss.getD i "") := by
  intro ss
  induction ss with
  | nil =>
    intro g hwf
    refine ⟨g, [], rfl, hwf, rfl, le_refl _, fun _ _ => rfl, ?_, ?_⟩
    · intro x
      simp
    · intro i hi
      simp at hi
  | cons s rest ih =>
    intro g hwf
    obtain ⟨g₁, h, halloc, hwf₁, hh, hvalh, hle₁, hpres₁, hiff₁⟩ :=
      alloc_string_spec g s hwf
    obtain ⟨g', hs', hrun, hwf', hlen', hle', hpres', hiff', hidx'⟩ :=
      ih g₁ hwf₁
    refine ⟨g', h :: hs', ?_, hwf', by simp [hlen'], by omega, ?_, ?_, ?_⟩
    · simp only [internAll]
      rw [halloc]
      simp only [Option.some_bind]
      rw [hrun]
      simp only [Option.some_bind]
    · intro h₀ hh₀
      rw [hpres' h₀ (by omega), hpres₁ h₀ hh₀]
    · intro x
      rw [hiff' x, hiff₁ x]
      simp only [List.mem_cons]
      rw [or_assoc]
    · intro i hi
      cases i with
      | zero =>
        simp only [List.getD_cons_zero]
        refine ⟨by omega, ?_⟩
        rw [hpres' h hh]
        exact hvalh
      | succ i =>
        have hrec := hidx' i (by simpa using hi)
        simpa [List.getD_cons_succ] using hrec

end RsLox

namespace RsLox

/-- C6: interning through `GC::alloc_string` deduplicates strings by
content: every source string gets a live handle to an object carrying its
content, two handles coincide exactly when the contents coincide, and the
number of live string objects equals the number of distinct contents. -/
theorem c6_intern_handle_identity (ss : List String) :
    ∃ g hs, internAll GC.new ss = some (g, hs) ∧
      hs.length = ss.length ∧
      g.objects.length = ss.dedup.length ∧
      ∀ i j : Fin ss.length,
        (hs.getD ↑i 0 = hs.getD ↑j 0 ↔ ss.getD ↑i "" = ss.getD ↑j "") := by
  obtain ⟨g, hs, hrun, hwf, hlen, hle, hpres, hiff, hidx⟩ :=
    internAll_spec ss GC.new gcWF_new
  refine ⟨g, hs, hrun, hlen, ?_, ?_⟩
  · have hnodup : (g.objects.map ObjString.value).Nodup := by
      apply nodup_map_of_getD_inj ObjString.value ⟨"", 0⟩
      intro i j hi hj hf
      exact hwf.distinct i j hi hj hf
    have hset : (g.objects.map ObjString.value).toFinset = ss.toFinset := by
      ext x
      simp only [List.mem_toFinset]
      rw [List.mem_map]
      constructor
      · rintro ⟨a, ha, rfl⟩
        obtain ⟨i, hget⟩ := List.mem_iff_get.mp ha
        have hex : ∃ h₀, h₀ < g.objects.length ∧
            (g.objAt h₀).value = a.value :=
          ⟨i.val, i.isLt, by
            unfold GC.objAt
            rw [getD_eq_get_of_lt g.objects i.val _ i.isLt, hget]⟩
        rcases (hiff a.value).mp hex with ⟨h₀, hh₀, _⟩ | hmem
        · simp [GC.new] at hh₀
        · exact hmem
      · intro hx
        obtain ⟨h₀, hh₀, hv⟩ := (hiff x).mpr (Or.inr hx)
        refine ⟨g.objects.get ⟨h₀, hh₀⟩, List.get_mem _ _ _, ?_⟩
        rw [← hv]
        unfold GC.objAt
        rw [getD_eq_get_of_lt g.objects h₀ _ hh₀]
    calc g.objects.length
        = (g.objects.map ObjString.value).length := by simp
      _ = (g.objects.map ObjString.value).dedup.length := by
          rw [hnodup.dedup]
      _ = (g.objects.map ObjString.value).toFinset.card :=
          (List.card_toFinset _).symm
      _ = ss.toFinset.card := by rw [hset]
      _ = ss.dedup.length := List.card_toFinset _
  · intro i j
    have hi := hidx i.val i.isLt
    have hj := hidx j.val j.isLt
    constructor
    · intro heq
      rw [← hi.2, ← hj.2, heq]
    · intro heq
      apply hwf.distinct _ _ hi.1 hj.1
      rw [hi.2, hj.2]
      exact heq

end RsLox

namespace RsLox

/-! ## Scanner (`scanner.rs`)

The Rust scanner addresses the input by char position (`chars().nth`) but
slices lexemes by byte range (`&input[start..current]`); the two agree on
ASCII input, and every input under verification is ASCII.  The model uses
char positions throughout (`input : List Char`).  The unbounded `while`
loops walk `current` towards the end of the input, so fuel
`input.length + 1` never runs out; it is threaded explicitly. -/

/-- `scanner.rs::TokenKind`, in declaration order. -/
inductive TokenKind where
  | LeftParen | RightParen | LeftBrace | RightBrace | Comma | Dot
  | Minus | Plus | Semicolon | Slash | Star
  | Bang | BangEqual | Equal | EqualEqual
  | Greater | GreaterEqual | Less | LessEqual
  | Identifier | String | Number
  | And | Class | Else | False | For | Fun | If | Nil | Or | Print
  | Return | Super | This | True | Var | While
  | Error | Eof
deriving DecidableEq, Repr

/-- `scanner.rs::Token`. -/
structure Token where
  kind : TokenKind
  lexeme : String
  line : LineNumber
deriving DecidableEq, Repr

/-- `Token::new`. -/
def Token.new (kind : TokenKind) (lexeme : String) (line : LineNumber) :
    Token := ⟨kind, lexeme, line⟩

/-- `scanner.rs::Scanner`. -/
structure Scanner where
  input : List Char
  start : Nat
  current : Nat
  line : LineNumber
deriving Repr

/-- `Scanner::new`. -/
def Scanner.new (input : List Char) : Scanner := ⟨input, 0, 0, 1⟩

/-- `scanner.rs::is_digit`. -/
def is_digit (c : Char) : Bool := '0' ≤ c && c ≤ '9'

/-- `scanner.rs::is_alpha`. -/
def is_alpha (c : Char) : Bool :=
  ('a' ≤ c && c ≤ 'z') || ('A' ≤ c && c ≤ 'Z') || c = '_'

/-- `Scanner::make_token`: the lexeme is `input[start..current]`. -/
def Scanner.make_token (s : Scanner) (kind : TokenKind) : Token :=
  Token.new kind (String.mk ((s.input.drop s.start).take (s.current - s.start)))
    s.line

/-- `Scanner::error_token`: the message stands in for the lexeme. -/
def Scanner.error_token (s : Scanner) (message : String) : Token :=
  Token.new .Error message s.line

/-- `Scanner::peek`. -/
def Scanner.peek (s : Scanner) : Option Char := s.input.get? s.current

/-- `Scanner::peek_next`. -/
def Scanner.peek_next (s : Scanner) : Option Char := s.input.get? (s.current + 1)

/-- `Scanner::advance`. -/
def Scanner.advance (s : Scanner) : Option Char × Scanner :=
  match s.peek with
  | none => (none, s)
  | some c => (some c, { s with current := s.current + 1 })

/-- `Scanner::match` (`r#match`). -/
def Scanner.match_char (s : Scanner) (expected : Char) : Bool × Scanner :=
  if s.peek = some expected then (true, { s with current := s.current + 1 })
  else (false, s)

/-- The loop of `Scanner::match_while`. -/
def matchWhileAux (input : List Char) (filter : Char → Bool) :
    Nat → Nat → Nat
  | 0, cur => cur
  | fuel + 1, cur =>
    match input.get? cur with
    | some c =>
      if filter c then matchWhileAux input filter fuel (cur + 1) else cur
    | none => cur

/-- `Scanner::match_while`. -/
def Scanner.match_while (s : Scanner) (filter : Char → Bool) : Scanner :=
  { s with current := matchWhileAux s.input filter s.input.length s.current }

/-- The inner comment loop of `Scanner::skip_whitespace`: consume up to and
including the next newline (bumping `line`), or to the end of input. -/
def commentAux (input : List Char) : Nat → Nat → LineNumber → Nat × LineNumber
  | 0, cur, line => (cur, line)
  | fuel + 1, cur, line =>
    match input.get? cur with
    | none => (cur, line)
    | some c =>
      if c = '\n' then (cur + 1, line + 1)
      else commentAux input fuel (cur + 1) line

/-- The outer loop of `Scanner::skip_whitespace`. -/
def skipWsAux (input : List Char) : Nat → Nat → LineNumber → Nat × LineNumber
  | 0, cur, line => (cur, line)
  | fuel + 1, cur, line =>
    match input.get? cur with
    | none => (cur, line)
    | some c =>
      if c = ' ' ∨ c = '\r' ∨ c = '\t' then skipWsAux input fuel (cur + 1) line
      else if c = '\n' then skipWsAux input fuel (cur + 1) (line + 1)
      else if c = '/' then
        if input.get? (cur + 1) = some '/' then
          let p := commentAux input fuel cur line
          skipWsAux input fuel p.1 p.2
        else (cur, line)
      else (cur, line)

/-- `Scanner::skip_whitespace`. -/
def Scanner.skip_whitespace (s : Scanner) : Scanner :=
  let p := skipWsAux s.input (s.input.length + 1) s.current s.line
  { s with current := p.1, line := p.2 }

/-- The loop of `Scanner::string`: `(current, line, found closing quote)`. -/
def stringAux (input : List Char) :
    Nat → Nat → LineNumber → Nat × LineNumber × Bool
  | 0, cur, line => (cur, line, false)
  | fuel + 1, cur, line =>
    match input.get? cur with
    | none => (cur, line, false)
    | some c =>
      if c = '"' then (cur + 1, line, true)
      else if c = '\n' then stringAux input fuel (cur + 1) (line + 1)
      else stringAux input fuel (cur + 1) line

/-- `Scanner::string`. -/
def Scanner.string (s : Scanner) : Token × Scanner :=
  let p := stringAux s.input (s.input.length + 1) s.current s.line
  let s' : Scanner := { s with current := p.1, line := p.2.1 }
  if p.2.2 then (s'.make_token .String, s')
  else (s'.error_token "Unterminated string.", s')

/-- `Scanner::number`. -/
def Scanner.number (s : Scanner) : Token × Scanner :=
  let s := s.match_while is_digit
  let s :=
    match s.peek with
    | some c =>
      if c = '.' then
        match s.peek_next with
        | some c2 =>
          if is_digit c2 then
            ({ s with current := s.current + 1 } : Scanner).match_while is_digit
          else s
        | none => s
      else s
    | none => s
  (s.make_token .Number, s)

/-- `Scanner::check_keyword`. -/
def Scanner.check_keyword (s : Scanner) (start : Nat) (keyword : List Char)
    (kind : TokenKind) : TokenKind :=
  if (s.input.drop (s.start + start)).take (s.current - (s.start + start))
      = keyword
  then kind else .Identifier

/-- `Scanner::identifier_type` (the keyword trie).  The `unwrap`ed chars
exist whenever this runs — `identifier` is entered after an alpha char —
so the unreachable `none` arms return `Identifier`. -/
def Scanner.identifier_type (s : Scanner) : TokenKind :=
  match s.input.get? s.start with
  | some 'a' => s.check_keyword 1 ['n', 'd'] .And
  | some 'c' => s.check_keyword 1 ['l', 'a', 's', 's'] .Class
  | some 'e' => s.check_keyword 1 ['l', 's', 'e'] .Else
  | some 'f' =>
    if s.current - s.start > 1 then
      match s.input.get? (s.start + 1) with
      | some 'a' => s.check_keyword 2 ['l', 's', 'e'] .False
      | some 'o' => s.check_keyword 2 ['r'] .For
      | some 'u' => s.check_keyword 2 ['n'] .Fun
      | _ => .Identifier
    else .Identifier
  | some 'i' => s.check_keyword 1 ['f'] .If
  | some 'n' => s.check_keyword 1 ['i', 'l'] .Nil
  | some 'o' => s.check_keyword 1 ['r'] .Or
  | some 'p' => s.check_keyword 1 ['r', 'i', 'n', 't'] .Print
  | some 'r' => s.check_keyword 1 ['e', 't', 'u', 'r', 'n'] .Return
  | some 't' =>
    if s.current - s.start > 1 then
      match s.input.get? (s.start + 1) with
      | some 'h' => s.check_keyword 2 ['i', 's'] .This
      | some 'r' => s.check_keyword 2 ['u', 'e'] .True
      | _ => .Identifier
    else .Identifier
  | some 's' => s.check_keyword 1 ['u', 'p', 'e', 'r'] .Super
  | some 'v' => s.check_keyword 1 ['a', 'r'] .Var
  | some 'w' => s.check_keyword 1 ['h', 'i', 'l', 'e'] .While
  | _ => .Identifier

/-- `Scanner::identifier`. -/
def Scanner.identifier (s : Scanner) : Token × Scanner :=
  let s := s.match_while (fun c => is_alpha c || is_digit c)
  (s.make_token (s.identifier_type), s)

/-- `Scanner::scan`. -/
def Scanner.scan (s : Scanner) : Token × Scanner :=
  let s := s.skip_whitespace
  let s : Scanner := { s with start := s.current }
  match s.advance with
  | (none, s) => (s.make_token .Eof, s)
  | (some c, s) =>
    match c with
    | '(' => (s.make_token .LeftParen, s)
    | ')' => (s.make_token .RightParen, s)
    | '{' => (s.make_token .LeftBrace, s)
    | '}' => (s.make_token .RightBrace, s)
    | ';' => (s.make_token .Semicolon, s)
    | ',' => (s.make_token .Comma, s)
    | '.' => (s.make_token .Dot, s)
    | '-' => (s.make_token .Minus, s)
    | '+' => (s.make_token .Plus, s)
    | '/' => (s.make_token .Slash, s)
    | '*' => (s.make_token .Star, s)
    | '!' =>
      match s.match_char '=' with
      | (true, s) => (s.make_token .BangEqual, s)
      | (false, s) => (s.make_token .Bang, s)
    | '=' =>
      match s.match_char '=' with
      | (true, s) => (s.make_token .EqualEqual, s)
      | (false, s) => (s.make_token .Equal, s)
    | '>' =>
      match s.match_char '=' with
      | (true, s) => (s.make_token .GreaterEqual, s)
      | (false, s) => (s.make_token .Greater, s)
    | '<' =>
      match s.match_char '=' with
      | (true, s) => (s.make_token .LessEqual, s)
      | (false, s) => (s.make_token .Less, s)
    | '"' => s.string
    | c =>
      if is_digit c then s.number
      else if is_alpha c then s.identifier
      else (s.error_token "Unexpected character.", s)

end RsLox

namespace RsLox

/-! ## Compiler (`compiler.rs`)

`Precedence as u8`: None = 0, Assignment = 1, Or = 2, And = 3,
Equality = 4, Comparison = 5, Term = 6, Factor = 7, Unary = 8, Call = 9,
Primary = 10.  The Rust `ParseRule` fields `prefix`/`infix` are named
`pfx`/`ifx` here; the function pointers become tags.  Parser recursion
(`parse_precedence` ↔ the handlers) is fuel-indexed; `none` models both a
Rust panic and fuel running out (authentic runs never exhaust the fuel
`compile` supplies). -/

/-- The prefix handlers `get_rule` can name: `grouping`, `unary`,
`variable` (tag `variableRef`) and `string` (tag `stringLit`). -/
inductive PrefixFn where
  | grouping
  | unary
  | variableRef
  | stringLit
deriving DecidableEq, Repr

/-- The only infix handler `get_rule` can name: `binary`. -/
inductive InfixFn where
  | binary
deriving DecidableEq, Repr

/-- `compiler.rs::ParseRule` (`prefix`/`infix` as `pfx`/`ifx`). -/
structure ParseRule where
  pfx : Option PrefixFn
  ifx : Option InfixFn
  precedence : Nat
deriving DecidableEq, Repr

/-- `compiler.rs::get_rule`.  The Rust match's 22nd arm is written `Str`;
`Str` is not a `TokenKind` variant (the literal variant is `String`) and
resolves to nothing else in scope, so Rust reads it as an irrefutable
binding pattern: every kind the earlier arms did not match — `String`,
`Number`, `And`, `Class`, `Else`, `False`, `For`, `Fun`, `If`, `Nil`,
`Or`, `Print`, `Return`, `Super`, `This`, `True`, `Var`, `While`,
`Error`, `Eof` — takes that arm's rule `{ prefix: Some(string), infix:
None, precedence: None }`, and the arms written below it (including
`Number => prefix number` and the `literal` rules for `True`, `False`,
`Nil`) are unreachable dead code. -/
def get_rule : TokenKind → ParseRule
  | .LeftParen => ⟨some .grouping, none, 0⟩
  | .RightParen => ⟨none, none, 0⟩
  | .LeftBrace => ⟨none, none, 0⟩
  | .RightBrace => ⟨none, none, 0⟩
  | .Comma => ⟨none, none, 0⟩
  | .Dot => ⟨none, none, 0⟩
  | .Minus => ⟨some .unary, some .binary, 6⟩
  | .Plus => ⟨none, some .binary, 6⟩
  | .Semicolon => ⟨none, none, 0⟩
  | .Slash => ⟨none, some .binary, 7⟩
  | .Star => ⟨none, some .binary, 7⟩
  | .Bang => ⟨some .unary, none, 0⟩
  | .BangEqual => ⟨none, some .binary, 4⟩
  | .Equal => ⟨none, none, 0⟩
  | .EqualEqual => ⟨none, some .binary, 4⟩
  | .Greater => ⟨none, some .binary, 5⟩
  | .GreaterEqual => ⟨none, some .binary, 5⟩
  | .Less => ⟨none, some .binary, 5⟩
  | .LessEqual => ⟨none, some .binary, 5⟩
  | .Identifier => ⟨some .variableRef, none, 0⟩
  | _ => ⟨some .stringLit, none, 0⟩

/-- `compiler.rs::ParserError`. -/
structure ParserError where
  message : String
  token : Token
deriving DecidableEq, Repr

/-- `compiler.rs::Compiler`. -/
structure Compiler where
  gc : GC
  scanner : Scanner
  current : Token
  previous : Token
  errors : List ParserError
  panic_mode : Bool
  current_chunk : Chunk

/-- `Compiler::error_at`. -/
def Compiler.error_at (c : Compiler) (token : Token) (message : String) :
    Compiler :=
  if c.panic_mode then c
  else { c with panic_mode := true,
                errors := c.errors ++ [⟨message, token⟩] }

/-- `Compiler::error_at_current`. -/
def Compiler.error_at_current (c : Compiler) (message : String) : Compiler :=
  c.error_at c.current message

/-- `Compiler::error`. -/
def Compiler.error (c : Compiler) (message : String) : Compiler :=
  c.error_at c.previous message

/-- The loop of `Compiler::advance`: scan until a non-`Error` token,
reporting each `Error` token's message. -/
def Compiler.advanceAux : Nat → Compiler → Option Compiler
  | 0, _ => none
  | fuel + 1, c =>
    let p := c.scanner.scan
    let c : Compiler := { c with scanner := p.2, current := p.1 }
    if p.1.kind ≠ .Error then some c
    else Compiler.advanceAux fuel (c.error_at_current p.1.lexeme)

/-- `Compiler::advance`. -/
def Compiler.advance (c : Compiler) : Option Compiler :=
  Compiler.advanceAux (c.scanner.input.length + 1) { c with previous := c.current }

/-- `Compiler::check`. -/
def Compiler.check (c : Compiler) (kind : TokenKind) : Bool :=
  c.current.kind = kind

/-- `Compiler::consume`. -/
def Compiler.consume (c : Compiler) (kind : TokenKind) (message : String) :
    Option Compiler :=
  if c.check kind then c.advance else some (c.error_at_current message)

/-- `Compiler::match` (`r#match`). -/
def Compiler.match_tok (c : Compiler) (kind : TokenKind) :
    Option (Compiler × Bool) :=
  if c.check kind then (c.advance).map (·, true)
  else some (c, false)

/-- The loop of `Compiler::synchronize`. -/
def Compiler.syncAux : Nat → Compiler → Option Compiler
  | 0, _ => none
  | fuel + 1, c =>
    if c.current.kind = .Eof then some c
    else if c.previous.kind = .Semicolon then some c
    else
      match c.current.kind with
      | .Class | .Fun | .Var | .For | .If | .While | .Print | .Return =>
        some c
      | _ => do
        let c ← c.advance
        Compiler.syncAux fuel c

/-- `Compiler::synchronize`. -/
def Compiler.synchronize (c : Compiler) : Option Compiler :=
  Compiler.syncAux (c.scanner.input.length + 1) { c with panic_mode := false }

/-- `Compiler::emit_opcode`. -/
def Compiler.emit_opcode (c : Compiler) (op : OpCode) : Compiler :=
  { c with current_chunk := c.current_chunk.write_byte op.toByte c.previous.line }

/-- `Compiler::emit_opcodes`. -/
def Compiler.emit_opcodes (c : Compiler) (ops : List OpCode) : Compiler :=
  ops.foldl Compiler.emit_opcode c

/-- `Compiler::emit_return`. -/
def Compiler.emit_return (c : Compiler) : Compiler := c.emit_opcode .Return

/-- `Compiler::emit_constant`. -/
def Compiler.emit_constant (c : Compiler) (value : Value) : Option Compiler :=
  let p := c.current_chunk.add_const value
  (p.1.ref_const p.2 .Constant .ConstantLong c.previous.line).map
    fun ch => { c with current_chunk := ch }

/-- `Compiler::end` (`end` is reserved in Lean). -/
def Compiler.end_chunk (c : Compiler) : Chunk := c.emit_return.current_chunk

/-- `Compiler::identifier_constant`. -/
def Compiler.identifier_constant (c : Compiler) : Option (Compiler × Nat) :=
  (c.gc.alloc_string c.previous.lexeme).map fun p =>
    let q := c.current_chunk.add_const (Value.object p.2)
    ({ c with gc := p.1, current_chunk := q.1 }, q.2)

/-- `Compiler::parse_variable`. -/
def Compiler.parse_variable (c : Compiler) (message : String) :
    Option (Compiler × Nat) := do
  let c ← c.consume .Identifier message
  c.identifier_constant

/-- `Compiler::define_variable`. -/
def Compiler.define_variable (c : Compiler) (name_ref : Nat) :
    Option Compiler :=
  (c.current_chunk.ref_const name_ref .DefineGlobal .DefineGlobalLong
      c.previous.line).map
    fun ch => { c with current_chunk := ch }

/-- `compiler.rs::named_variable`. -/
def Compiler.named_variable (c : Compiler) : Option Compiler := do
  let p ← c.identifier_constant
  let ch ← p.1.current_chunk.ref_const p.2 .Get .GetLong p.1.previous.line
  some { p.1 with current_chunk := ch }

/-- `compiler.rs::string`: slices `lexeme[1..len-1]` — a byte-range that
panics (`none`) for lexemes shorter than two chars — interns the content
and emits it as an `Object` constant. -/
def Compiler.string_fn (c : Compiler) : Option Compiler :=
  let chars := c.previous.lexeme.toList
  if 2 ≤ chars.length then
    (c.gc.alloc_string (String.mk ((chars.drop 1).take (chars.length - 2)))).bind
      fun p => ({ c with gc := p.1 } : Compiler).emit_constant (Value.object p.2)
  else none

/-- Decimal digits to `Nat`. -/
def digitsToNat (ds : List Char) : Nat :=
  ds.foldl (fun n c => n * 10 + (c.toNat - 48)) 0

/-- `str::parse::<f32>` restricted to the lexeme shapes `Scanner::number`
produces (digits with an optional fractional part); real `f32` rounding is
not modelled. -/
def lexemeToF32 (s : String) : Option F32 :=
  let cs := s.toList
  let ip := cs.takeWhile is_digit
  let rest := cs.drop ip.length
  if ip = [] then none
  else
    match rest with
    | [] => some (.fin (digitsToNat ip))
    | '.' :: frac =>
      if frac ≠ [] ∧ frac.all is_digit then
        some (.fin ((digitsToNat ip : ℚ) +
          (digitsToNat frac : ℚ) / (10 ^ frac.length)))
      else none
    | _ => none

/-- `compiler.rs::number`: parse the lexeme and emit it as a `Number`
constant.  Unreachable through `get_rule` (see the comment there), kept as
a model of the intended handler. -/
def Compiler.number_fn (c : Compiler) : Option Compiler :=
  (lexemeToF32 c.previous.lexeme).bind fun v =>
    c.emit_constant (Value.number v)

/-- `Compiler::parse_precedence` with the `grouping`, `unary`, `binary`,
`variable` and `string` handlers inlined at their call sites (they are the
`ParseFn`s `get_rule` can return).  The `Bool` selects the phase: `false`
runs the whole of `parse_precedence`, `true` the infix `while` loop.  The
guard `rule.precedence + 1 ≤ 10` is `FromPrimitive::from_u8(...).unwrap()`
in `binary`. -/
def ppAux : Nat → Nat → Bool → Compiler → Option Compiler
  | 0, _, _, _ => none
  | fuel + 1, prec, false, c => do
    let c ← c.advance
    match (get_rule c.previous.kind).pfx with
    | none => some (c.error_at_current "Expected expression.")
    | some pf => do
      let c ←
        match pf with
        | .grouping => do
          let c ← ppAux fuel 1 false c
          c.consume .RightParen "Expect ')' after expression."
        | .unary =>
          let op := c.previous.kind
          do
            let c ← ppAux fuel 8 false c
            match op with
            | .Minus => some (c.emit_opcode .Negate)
            | .Bang => some (c.emit_opcode .Not)
            | _ => none
        | .variableRef => c.named_variable
        | .stringLit => c.string_fn
      ppAux fuel prec true c
  | fuel + 1, prec, true, c =>
    if prec ≤ (get_rule c.current.kind).precedence then do
      let c ← c.advance
      match (get_rule c.previous.kind).ifx with
      | some .binary =>
        let op := c.previous.kind
        let rule := get_rule op
        if rule.precedence + 1 ≤ 10 then do
          let c ← ppAux fuel (rule.precedence + 1) false c
          let c ←
            match op with
            | .BangEqual => some (c.emit_opcodes [.Equal, .Not])
            | .EqualEqual => some (c.emit_opcode .Equal)
            | .Greater => some (c.emit_opcode .Greater)
            | .GreaterEqual => some (c.emit_opcodes [.Less, .Not])
            | .Less => some (c.emit_opcode .Less)
            | .LessEqual => some (c.emit_opcodes [.Greater, .Not])
            | .Plus => some (c.emit_opcode .Add)
            | .Minus => some (c.emit_opcode .Subtract)
            | .Star => some (c.emit_opcode .Multiply)
            | .Slash => some (c.emit_opcode .Divide)
            | _ => none
          ppAux fuel prec true c
        else none
      | none => ppAux fuel prec true c
    else some c

/-- `Compiler::expression`. -/
def Compiler.expression (fuel : Nat) (c : Compiler) : Option Compiler :=
  ppAux fuel 1 false c

/-- `Compiler::var_declaration`. -/
def Compiler.var_declaration (fuel : Nat) (c : Compiler) : Option Compiler := do
  let p ← c.parse_variable "Expected variable name."
  let m ← p.1.match_tok .Equal
  let c ←
    if m.2 then Compiler.expression fuel m.1
    else some (m.1.emit_opcode .Nil)
  let c ← c.consume .Semicolon "Expected ';' after variable declaration."
  c.define_variable p.2

/-- `Compiler::print_statement`. -/
def Compiler.print_statement (fuel : Nat) (c : Compiler) : Option Compiler := do
  let c ← Compiler.expression fuel c
  let c ← c.consume .Semicolon "Expected ';' after value."
  some (c.emit_opcode .Print)

/-- `Compiler::expression_statement`. -/
def Compiler.expression_statement (fuel : Nat) (c : Compiler) :
    Option Compiler := do
  let c ← Compiler.expression fuel c
  let c ← c.consume .Semicolon "Expected ';' after value."
  some (c.emit_opcode .Pop)

/-- `Compiler::statement`. -/
def Compiler.statement (fuel : Nat) (c : Compiler) : Option Compiler := do
  let m ← c.match_tok .Print
  if m.2 then Compiler.print_statement fuel m.1
  else Compiler.expression_statement fuel m.1

/-- `Compiler::declaration`. -/
def Compiler.declaration (fuel : Nat) (c : Compiler) : Option Compiler := do
  let m ← c.match_tok .Var
  let c ←
    if m.2 then Compiler.var_declaration fuel m.1
    else Compiler.statement fuel m.1
  if c.panic_mode then c.synchronize else some c

/-- The `while !compiler.match(Eof)` loop of `compiler.rs::compile`. -/
def compileLoopAux (pfuel : Nat) : Nat → Compiler → Option Compiler
  | 0, _ => none
  | fuel + 1, c => do
    let m ← c.match_tok .Eof
    if m.2 then some m.1
    else do
      let c ← Compiler.declaration pfuel m.1
      compileLoopAux pfuel fuel c

/-- `compiler.rs::compile`: scan the first token (`Compiler::new`), parse
declarations until `Eof`, then return the finished chunk (with `Return`
appended by `end`) or the collected parse errors
(`InterpreterError::CompileError`).  The fuel `input.length + 16` bounds
every loop and the parser recursion depth on terminating runs. -/
def compile (source : String) (gc : GC) :
    Option (Except (List ParserError) Chunk × GC) :=
  let input := source.toList
  let fuel := input.length + 16
  let p := (Scanner.new input).scan
  let c : Compiler :=
    { gc := gc, scanner := p.2, current := p.1, previous := p.1,
      errors := [], panic_mode := false, current_chunk := Chunk.new }
  do
    let c ← compileLoopAux fuel fuel c
    let c ← c.consume .Eof "Expect end of expression."
    match c.errors with
    | [] => some (.ok c.end_chunk, c.gc)
    | _ => some (.error c.errors, c.gc)

end RsLox

namespace RsLox

/-- What `compile` and a subsequent `run` observably produce: the compiled
chunk's code bytes and constant pool, the interned heap contents, and —
when compilation succeeds and the run halts normally — the run's result
value and output lines. -/
def compileObs (source : String) :
    Option (Except (List ParserError) (List Nat × List Value) × List String) :=
  (compile source GC.new).map fun p =>
    (p.1.map fun ch => (ch.code, ch.constants),
     p.2.objects.map ObjString.value)

/-- See `compileObs`: the run's observable half. -/
def compileRunObs (source : String) (fuel : Nat) :
    Option (Option (Value × List String)) :=
  (compile source GC.new).map fun p =>
    match p.1 with
    | .ok ch =>
      match vmRun ch fuel (initVM p.2) with
      | some (.ok v st) => some (v, st.output)
      | _ => none
    | .error _ => none

/-- C1: what `compile("123;")` actually produces.  Compilation succeeds
with code `[Constant, 0, Pop, Return]`, and running the chunk yields `Nil`
with no output — but constant 0 is an `Object` (the interned string `"2"`,
the lexeme `"123"` with its first and last byte stripped), not
`Number(123)`: because of the irrefutable `Str` arm in `get_rule` the
prefix handler dispatched for a `Number` token is `string`, and `number`
is unreachable. -/
theorem c1_number_literal_code_bug :
    compileObs "123;" =
      some (.ok ([OpCode.Constant.toByte, 0, OpCode.Pop.toByte,
        OpCode.Return.toByte], [Value.object 0]), ["2"]) ∧
    compileRunObs "123;" 10 = some (some (Value.nil, [])) := ⟨rfl, rfl⟩

end RsLox

namespace RsLox

/-- C4 counterexample: the empty source compiles successfully — the
declaration loop exits before its first iteration, `consume(Eof)` is
satisfied, no error was recorded, and `end()` emits the lone `Return`. -/
theorem c4_empty_source_counterexample :
    compile "" GC.new =
      some (.ok (Chunk.new.write_opcode .Return 1), GC.new) := rfl

/-- C4 (corrected): compiling the empty source does not fail; it returns
`Ok` with a chunk holding exactly `[Return]` and an empty constant pool,
and never a `CompileError`. -/
theorem c4_empty_source_compiles_ok :
    ∃ ch, compile "" GC.new = some (.ok ch, GC.new) ∧
      ch.code = [OpCode.Return.toByte] ∧ ch.constants = [] ∧
      ∀ errs g, compile "" GC.new ≠ some (.error errs, g) := by
  refine ⟨_, rfl, rfl, rfl, ?_⟩
  intro errs g h
  rw [show compile "" GC.new =
    some (.ok (Chunk.new.write_opcode .Return 1), GC.new) from rfl] at h
  simp at h

end RsLox
